import Mathlib

/-!
# Verification of the `linalg` dense linear-algebra kernel

A shallow embedding of the matrix core of the `linalg` Go library
(`matrix.go`, `ludecompose.go`, `qrdecompose.go`, `inverse.go`,
`determinant.go`, `eigenvalues.go`, `multiply.go`) together with proofs of
the specified properties.

Go `[][]float64` values are modelled as `List (List K)` for a linear ordered
field `K` (exact arithmetic stands in for IEEE doubles; the library's
numerical thresholds `1e-12` and `1e-10` are taken at their decimal values).
After the structural validation that every engine performs, the working
data is held as a function matrix `Matrix (Fin n) (Fin n) K`, which mirrors
the `n×n` float64 working arrays the Go code allocates.  Go `error` results
are modelled as `Except String` carrying the exact message strings the
source constructs.
-/

namespace Linalg

/-- Raw matrix representation: a Go `[][]T`, rows as inner lists. -/
abbrev RawMatrix (K : Type) := List (List K)

instance {ε α : Type} [DecidableEq ε] [DecidableEq α] : DecidableEq (Except ε α) :=
  fun a b =>
  match a, b with
  | .error x, .error y =>
    if h : x = y then isTrue (by rw [h]) else isFalse (by simp [h])
  | .ok x, .ok y =>
    if h : x = y then isTrue (by rw [h]) else isFalse (by simp [h])
  | .error _, .ok _ => isFalse (by simp)
  | .ok _, .error _ => isFalse (by simp)

/-- Square function-matrix working representation. -/
abbrev Mat (n : ℕ) (K : Type) := Matrix (Fin n) (Fin n) K

/-- The error message produced by `Matrix.Validate` at row `i`
(`"inconsistent row length at row %d: expected %d, got %d"`). -/
def validateMsg (i expected got : ℕ) : String :=
  "inconsistent row length at row " ++ toString i ++ ": expected " ++
    toString expected ++ ", got " ++ toString got

/-- `Matrix.Validate` from `matrix.go`: an empty matrix is valid; otherwise
every row must have the length of the first row, and the first offending
row index is reported. -/
def validate {K : Type} (m : RawMatrix K) : Option String :=
  match m with
  | [] => none
  | r0 :: _ =>
    match (List.range m.length).find? (fun i => (m.getD i []).length ≠ r0.length) with
    | some i => some (validateMsg i r0.length (m.getD i []).length)
    | none => none

/-- `Matrix.isSquare` from `matrix.go`: an empty matrix is not square; a
non-empty one is square when the row count equals the length of row 0. -/
def isSquare {K : Type} (m : RawMatrix K) : Bool :=
  match m with
  | [] => false
  | r0 :: _ => m.length = r0.length

/-- The element access `m[i][j]` used by the Go conversion loops
(`a[i][j] = float64(m[i][j])`), total via a zero default (never hit on
validated input). -/
def entry {K : Type} [Zero K] (m : RawMatrix K) (i j : ℕ) : K :=
  (m.getD i []).getD j 0

/-- The float64 working copy of a validated square raw matrix
(the `a[i][j] = float64(m[i][j])` conversion loops). -/
def ofRaw {K : Type} [Zero K] (m : RawMatrix K) : Mat m.length K :=
  fun i j => (m.getD i []).getD j 0

/-- Conversion of a function matrix back to the raw (`[][]float64`) form. -/
def toRaw {K : Type} {n : ℕ} (A : Mat n K) : RawMatrix K :=
  List.ofFn fun i : Fin n => List.ofFn fun j : Fin n => A i j

section Field
variable {K : Type} [LinearOrderedField K]

/-- The partial-pivot search shared by `LUDecompose` and `Inverse`:
starting from `(i, |f i|)`, scan `k = i+1 .. n-1` and record `(k, |f k|)`
whenever `|f k|` strictly exceeds the recorded maximum. -/
def pivotSearch {n : ℕ} (f : Fin n → K) (i : Fin n) : Fin n × K :=
  (List.finRange n).foldl
    (fun p k => if i < k ∧ p.2 < |f k| then (k, |f k|) else p) (i, |f i|)

theorem pivotSearch_spec {n : ℕ} (f : Fin n → K) (i : Fin n) :
    i ≤ (pivotSearch f i).1 ∧ (pivotSearch f i).2 = |f (pivotSearch f i).1| := by
  unfold pivotSearch
  generalize List.finRange n = l
  induction l generalizing i with
  | nil => exact ⟨le_refl i, rfl⟩
  | cons hd tl ih =>
    simp only [List.foldl_cons]
    by_cases h : i < hd ∧ |f i| < |f hd|
    · rw [if_pos h]
      have h2 := ih (i := i)
      -- restate for accumulator (hd, |f hd|)
      have key : ∀ (acc : Fin n × K), i ≤ acc.1 → acc.2 = |f acc.1| →
          i ≤ (tl.foldl (fun p k => if i < k ∧ p.2 < |f k| then (k, |f k|) else p) acc).1 ∧
          (tl.foldl (fun p k => if i < k ∧ p.2 < |f k| then (k, |f k|) else p) acc).2 =
            |f (tl.foldl (fun p k => if i < k ∧ p.2 < |f k| then (k, |f k|) else p) acc).1| := by
        intro acc hle heq
        clear ih h h2
        induction tl generalizing acc with
        | nil => exact ⟨hle, heq⟩
        | cons hd2 tl2 ih2 =>
          simp only [List.foldl_cons]
          by_cases h3 : i < hd2 ∧ acc.2 < |f hd2|
          · rw [if_pos h3]
            exact ih2 (hd2, |f hd2|) (le_of_lt h3.1) rfl
          · rw [if_neg h3]
            exact ih2 acc hle heq
      exact key (hd, |f hd|) (le_of_lt h.1) rfl
    · rw [if_neg h]
      have key : ∀ (acc : Fin n × K), i ≤ acc.1 → acc.2 = |f acc.1| →
          i ≤ (tl.foldl (fun p k => if i < k ∧ p.2 < |f k| then (k, |f k|) else p) acc).1 ∧
          (tl.foldl (fun p k => if i < k ∧ p.2 < |f k| then (k, |f k|) else p) acc).2 =
            |f (tl.foldl (fun p k => if i < k ∧ p.2 < |f k| then (k, |f k|) else p) acc).1| := by
        intro acc hle heq
        clear ih h
        induction tl generalizing acc with
        | nil => exact ⟨hle, heq⟩
        | cons hd2 tl2 ih2 =>
          simp only [List.foldl_cons]
          by_cases h3 : i < hd2 ∧ acc.2 < |f hd2|
          · rw [if_pos h3]
            exact ih2 (hd2, |f hd2|) (le_of_lt h3.1) rfl
          · rw [if_neg h3]
            exact ih2 acc hle heq
      exact key (i, |f i|) (le_refl i) rfl

end Field

section Iter
variable {St : Type}

/-- Generic `for i := range n` loop with early error return: runs
`step i` for `i = start, …, n-1`, threading the state, aborting on the
first error.  Structural recursion on a fuel argument (instantiated with
at least `n - i`, so the loop always runs to completion) keeps the
definition kernel-reducible. -/
def iterFrom (n : ℕ) (step : (i : ℕ) → i < n → St → Except String St) :
    (fuel : ℕ) → (i : ℕ) → St → Except String St
  | 0, _, st => .ok st
  | fuel + 1, i, st =>
    if h : i < n then
      match step i h st with
      | .error e => .error e
      | .ok st' => iterFrom n step fuel (i + 1) st'
    else .ok st

theorem iterFrom_inv (n : ℕ) (step : (i : ℕ) → i < n → St → Except String St)
    (P : ℕ → St → Prop)
    (hstep : ∀ i h st st', P i st → step i h st = .ok st' → P (i + 1) st') :
    ∀ fuel i st st', i ≤ n → n ≤ i + fuel → P i st →
      iterFrom n step fuel i st = .ok st' → P n st' := by
  intro fuel
  induction fuel with
  | zero =>
    intro i st st' hi hfi hP hrun
    have hin : i = n := by omega
    cases hrun
    exact hin ▸ hP
  | succ d ih =>
    intro i st st' hi hfi hP hrun
    rw [iterFrom] at hrun
    by_cases hlt : i < n
    · rw [dif_pos hlt] at hrun
      cases hs : step i hlt st with
      | error e => rw [hs] at hrun; cases hrun
      | ok st1 =>
        rw [hs] at hrun
        exact ih (i + 1) st1 st' (by omega) (by omega)
          (hstep i hlt st st1 hP hs) hrun
    · rw [dif_neg hlt] at hrun
      cases hrun
      have hin : i = n := by omega
      exact hin ▸ hP

theorem iterFrom_error (n : ℕ) (step : (i : ℕ) → i < n → St → Except String St)
    (e : String)
    (hstep : ∀ i h st e', step i h st = .error e' → e' = e) :
    ∀ fuel i st e', iterFrom n step fuel i st = .error e' → e' = e := by
  intro fuel
  induction fuel with
  | zero => intro i st e' hrun; cases hrun
  | succ d ih =>
    intro i st e' hrun
    rw [iterFrom] at hrun
    by_cases hlt : i < n
    · rw [dif_pos hlt] at hrun
      cases hs : step i hlt st with
      | error e2 =>
        rw [hs] at hrun
        cases hrun
        exact hstep i hlt st e' hs
      | ok st1 =>
        rw [hs] at hrun
        exact ih (i + 1) st1 e' hrun
    · rw [dif_neg hlt] at hrun
      cases hrun

end Iter

section LU
variable {K : Type} [LinearOrderedField K]

/-- The singularity threshold `1e-12` of `LUDecompose`. -/
def luEps (K : Type) [LinearOrderedField K] : K := 1 / 10 ^ 12

/-- The loop state of `LUDecompose`: the (row-permuted) working copy `a`,
the partial factors `l` and `u`, and the row-swap counter. -/
structure LUState (n : ℕ) (K : Type) where
  a : Mat n K
  l : Mat n K
  u : Mat n K
  swaps : ℕ

/-- The row-swap phase of one `LUDecompose` iteration: if the pivot row
`maxRow` differs from `i`, swap rows `i` and `maxRow` of the working copy
`a` and of the already-computed part of `l` (columns `k < i`), and
increment the swap counter. -/
def luSwap {n : ℕ} (i : Fin n) (st : LUState n K) : LUState n K :=
  let p := (pivotSearch (fun k => st.a k i) i).1
  if p = i then st
  else
    { a := fun r c => st.a (Equiv.swap i p r) c
      l := fun r c => if (c : ℕ) < (i : ℕ) then st.l (Equiv.swap i p r) c else st.l r c
      u := st.u
      swaps := st.swaps + 1 }

/-- The `u`-update of one `LUDecompose` iteration: row `i` of `U` via
`u[i][k] = a[i][k] - Σ_{j<i} l[i][j]·u[j][k]` for `k ≥ i`. -/
def luU {n : ℕ} (i : Fin n) (st1 : LUState n K) : Mat n K := fun r c =>
  if r = i ∧ (i : ℕ) ≤ (c : ℕ) then
    st1.a i c - ∑ j ∈ Finset.Iio i, st1.l i j * st1.u j c
  else st1.u r c

/-- The `l`-update of one `LUDecompose` iteration: column `i` of `L`,
diagonal `1` and `l[k][i] = (a[k][i] - Σ_{j<i} l[k][j]·u[j][i]) / u[i][i]`
for `k > i`. -/
def luL {n : ℕ} (i : Fin n) (st1 : LUState n K) (u1 : Mat n K) : Mat n K := fun r c =>
  if c = i ∧ (i : ℕ) ≤ (r : ℕ) then
    if r = i then 1
    else (st1.a r i - ∑ j ∈ Finset.Iio i, st1.l r j * u1 j i) / u1 i i
  else st1.l r c

/-- One iteration of the `LUDecompose` pivot loop (`for i := range n`):
partial-pivot search on column `i`, conditional row swap of `a` and of the
computed part of `l`, computation of row `i` of `u`, the singularity check
`|u[i][i]| < 1e-12`, and computation of column `i` of `l`. -/
def luStep {n : ℕ} (i : Fin n) (st : LUState n K) : Except String (LUState n K) :=
  let st1 := luSwap i st
  let u1 := luU i st1
  if |u1 i i| < luEps K then .error "matrix is singular"
  else .ok { a := st1.a, l := luL i st1 u1, u := u1, swaps := st1.swaps }

/-- The full `LUDecompose` pivot loop on an `n×n` working copy, starting
from zero-initialised `l` and `u` and swap counter `0`. -/
def luLoop {n : ℕ} (A : Mat n K) : Except String (LUState n K) :=
  iterFrom n (fun i h st => luStep ⟨i, h⟩ st)
    n 0 { a := A, l := fun _ _ => 0, u := fun _ _ => 0, swaps := 0 }

/-- `LUDecompose` from `ludecompose.go`: validate, reject empty and
non-square inputs, convert to a float64 working copy, and run the pivot
loop, returning `(L, U, numSwaps)`. -/
def LUDecompose (m : RawMatrix K) : Except String (Mat m.length K × Mat m.length K × ℕ) :=
  match validate m with
  | some e => .error e
  | none =>
    if m.length = 0 then .error "matrix is empty"
    else if isSquare m = false then .error "matrix is not square"
    else
      match luLoop (ofRaw m) with
      | .error e => .error e
      | .ok st => .ok (st.l, st.u, st.swaps)

/-- Invariant of the `LUDecompose` pivot loop after the iterations for
columns `< i` have completed: the working copy `a` is a row permutation
(of sign `(-1)^swaps`) of the input; `l` is populated only on and below
the diagonal in columns `< i` with unit diagonal; `u` is populated only on
and above the diagonal in rows `< i`, its processed diagonal entries clear
the `1e-12` threshold; and on all processed rows/columns the products of
`l` and `u` reproduce `a`. -/
def LUInv {n : ℕ} (A : Mat n K) (i : ℕ) (st : LUState n K) : Prop :=
  ∃ σ : Equiv.Perm (Fin n),
    (∀ r c, st.a r c = A (σ r) c) ∧
    Equiv.Perm.sign σ = (-1) ^ st.swaps ∧
    (∀ r c : Fin n, ((r : ℕ) < (c : ℕ) ∨ i ≤ (c : ℕ)) → st.l r c = 0) ∧
    (∀ c : Fin n, (c : ℕ) < i → st.l c c = 1) ∧
    (∀ r c : Fin n, ((c : ℕ) < (r : ℕ) ∨ i ≤ (r : ℕ)) → st.u r c = 0) ∧
    (∀ c : Fin n, (c : ℕ) < i → luEps K ≤ |st.u c c|) ∧
    (∀ r c : Fin n, (r : ℕ) < i → (r : ℕ) ≤ (c : ℕ) →
      (∑ j, st.l r j * st.u j c) = st.a r c) ∧
    (∀ r c : Fin n, (c : ℕ) < i → (c : ℕ) < (r : ℕ) →
      (∑ j, st.l r j * st.u j c) = st.a r c)

/-- `Det` from `determinant.go`: validate (wrapping the message), reject
empty and non-square inputs, run `LUDecompose`; translate precisely the
`"matrix is singular"` error into the result `0`; otherwise multiply the
diagonal entries of `U` and negate if the swap count is odd. -/
def Det (m : RawMatrix K) : Except String K :=
  match validate m with
  | some e => .error ("invalid matrix: " ++ e)
  | none =>
    if m.length = 0 then .error "matrix is empty"
    else if isSquare m = false then .error "matrix is not square"
    else
      match LUDecompose m with
      | .error e => if e = "matrix is singular" then .ok 0 else .error e
      | .ok (_, U, numSwaps) =>
        let det := ∏ i, U i i
        .ok (if numSwaps % 2 ≠ 0 then -det else det)

end LU

section MultiplySec
variable {K : Type} [LinearOrderedField K]

/-- The core `n×n` matrix product `C[i][j] = Σ_k A[i][k]·B[k][j]` (the
triple loop of `Multiply` on square operands; on such operands the Go
`Multiply` never fails, so the eigenvalue loop below uses this core
directly). -/
def mulMat {n : ℕ} (A B : Mat n K) : Mat n K :=
  fun i j => ∑ k, A i k * B k j

/-- `Multiply` from `multiply.go`: validate both operands (wrapping the
message with the operand position), reject empty operands, check the inner
dimensions, and return `result[i][j] = Σ_{k<len b} a[i][k]·b[k][j]`. -/
def Multiply (a b : RawMatrix K) : Except String (RawMatrix K) :=
  match validate a with
  | some e => .error ("first matrix: " ++ e)
  | none =>
    match validate b with
    | some e => .error ("second matrix: " ++ e)
    | none =>
      if a.length = 0 ∨ b.length = 0 then .error "empty matrix"
      else if (a.headD []).length ≠ b.length then .error "incompatible dimensions"
      else .ok (List.ofFn fun i : Fin a.length =>
        List.ofFn fun j : Fin (b.headD []).length =>
          ∑ k : Fin b.length, entry a i k * entry b k j)

end MultiplySec

section GaussJordan
variable {K : Type} [LinearOrderedField K]

/-- The singularity threshold `epsilon = 1e-10` of `Inverse`. -/
def gjEps (K : Type) [LinearOrderedField K] : K := 1 / 10 ^ 10

/-- The augmented `[A | I]` working matrix of `Inverse`: column `j` is
`Sum.inl j`, column `n + j` is `Sum.inr j`. -/
abbrev Aug (n : ℕ) (K : Type) := Fin n → (Fin n ⊕ Fin n) → K

/-- Row swap of the augmented matrix (`if maxRow != i` swap rows). -/
def gjSwap {n : ℕ} (i p : Fin n) (aug : Aug n K) : Aug n K :=
  if p = i then aug else fun r c => aug (Equiv.swap i p r) c

/-- Pivot-row normalisation: divide the whole row `i` by the pivot
`A[i][i]`. -/
def gjScale {n : ℕ} (i : Fin n) (aug : Aug n K) : Aug n K :=
  fun r c => if r = i then aug i c / aug i (Sum.inl i) else aug r c

/-- Elimination of column `i` from every other row:
`A[k][j] -= A[k][i] * A[i][j]` for `k ≠ i`. -/
def gjElim {n : ℕ} (i : Fin n) (aug : Aug n K) : Aug n K :=
  fun r c => if r = i then aug r c else aug r c - aug r (Sum.inl i) * aug i c

/-- One iteration of the Gauss-Jordan loop of `Inverse`: partial-pivot
search on column `i` (rows `i..n-1`), the singularity check
`maxVal < 1e-10`, then swap, normalise, eliminate. -/
def gjStep {n : ℕ} (i : Fin n) (aug : Aug n K) : Except String (Aug n K) :=
  let pv := pivotSearch (fun k => aug k (Sum.inl i)) i
  if pv.2 < gjEps K then .error "matrix is singular"
  else .ok (gjElim i (gjScale i (gjSwap i pv.1 aug)))

/-- The full Gauss-Jordan elimination loop over all pivots. -/
def gjLoop {n : ℕ} (aug0 : Aug n K) : Except String (Aug n K) :=
  iterFrom n (fun i h aug => gjStep ⟨i, h⟩ aug) n 0 aug0

/-- `Inverse` from `inverse.go`: validate, reject non-square input (note:
no separate empty check — an empty matrix is not square and falls into the
same error), build the augmented `[A | I]`, run Gauss-Jordan, and extract
the right half. -/
def Inverse (m : RawMatrix K) : Except String (Mat m.length K) :=
  match validate m with
  | some e => .error e
  | none =>
    if isSquare m = false then .error "cannot invert a non-square matrix"
    else
      match gjLoop (fun i c => match c with
        | Sum.inl j => ofRaw m i j
        | Sum.inr j => if j = i then 1 else 0) with
      | .error e => .error e
      | .ok aug => .ok (fun i j => aug i (Sum.inr j))

/-- Invariant of the Gauss-Jordan loop of `Inverse` after the iterations
for pivots `< i`: the augmented matrix is `[G·A | G]` for some matrix `G`
(each row operation is linear in the rows), and the processed columns of
the left half already form the corresponding identity columns. -/
def GJInv {n : ℕ} (A : Mat n K) (i : ℕ) (aug : Aug n K) : Prop :=
  ∃ G : Mat n K,
    (∀ r c, aug r (Sum.inl c) = (G * A) r c) ∧
    (∀ r c, aug r (Sum.inr c) = G r c) ∧
    (∀ r c : Fin n, (c : ℕ) < i → aug r (Sum.inl c) = if r = c then 1 else 0)

end GaussJordan

section QR

/-- The linear-dependence threshold `1e-10` of `QRDecompose`. -/
noncomputable def qrEps : ℝ := 1 / 10 ^ 10

/-- The Euclidean norm `math.Sqrt(Σ v[i]²)` used by `QRDecompose`. -/
noncomputable def vnorm {n : ℕ} (v : Fin n → ℝ) : ℝ :=
  Real.sqrt (∑ i, v i * v i)

/-- The orthogonalised column `v` of one `QRDecompose` iteration: column
`j` of the input minus, for each processed column `k < j`, the component
`dot·q_k` with `dot = Σ_i q[i][k]·A[i][j]` (classical Gram-Schmidt: the
dot products use the raw column of `A`, so the subtractions commute and
the sequential update loop equals this closed sum). -/
noncomputable def qrV {n : ℕ} (A q : Mat n ℝ) (j : Fin n) : Fin n → ℝ := fun i =>
  A i j - ∑ k ∈ Finset.Iio j, (∑ i2, q i2 k * A i2 j) * q i k

/-- One iteration (column `j`) of `QRDecompose`: orthogonalise column `j`,
record `r[k][j] = dot` for `k < j`, check `‖v‖ < 1e-10`, set
`r[j][j] = ‖v‖` and `q[:,j] = v/‖v‖`. -/
noncomputable def qrStep {n : ℕ} (A : Mat n ℝ) (j : Fin n) (st : Mat n ℝ × Mat n ℝ) :
    Except String (Mat n ℝ × Mat n ℝ) :=
  let v := qrV A st.1 j
  if vnorm v < qrEps then .error "linearly dependent columns (zero norm)"
  else .ok
    (fun x y => if y = j then v x / vnorm v else st.1 x y,
     fun x y =>
       if y = j then
         if x = j then vnorm v
         else if (x : ℕ) < (j : ℕ) then ∑ i2, st.1 i2 x * A i2 j
         else st.2 x y
       else st.2 x y)

/-- The Gram-Schmidt loop of `QRDecompose` over all columns, starting from
zero-initialised `q` and `r`. -/
noncomputable def qrLoop {n : ℕ} (A : Mat n ℝ) : Except String (Mat n ℝ × Mat n ℝ) :=
  iterFrom n (fun j h st => qrStep A ⟨j, h⟩ st) n 0 (fun _ _ => 0, fun _ _ => 0)

/-- `QRDecompose` from `qrdecompose.go`: validate, reject empty and
non-square inputs, then run classical Gram-Schmidt. -/
noncomputable def QRDecompose (m : RawMatrix ℝ) :
    Except String (Mat m.length ℝ × Mat m.length ℝ) :=
  match validate m with
  | some e => .error e
  | none =>
    if m.length = 0 then .error "empty matrix"
    else if isSquare m = false then .error "matrix must be square"
    else qrLoop (ofRaw m)

/-- The mathematical Gram-Schmidt residual of column `j` of `A`
(specification ghost used to characterise the behaviour of `qrLoop`):
`v_j = A_j - Σ_{k<j} ⟨normalised v_k, A_j⟩ · normalised v_k`. -/
noncomputable def gsv {n : ℕ} (A : Mat n ℝ) : Fin n → (Fin n → ℝ) := fun j => fun i =>
  A i j - ∑ k ∈ (Finset.Iio j).attach,
    (∑ i2, (gsv A k.1 i2 / vnorm (gsv A k.1)) * A i2 j) *
      (gsv A k.1 i / vnorm (gsv A k.1))
termination_by j => (j : ℕ)
decreasing_by all_goals exact Fin.lt_def.mp (Finset.mem_Iio.mp k.2)

/-- The normalised Gram-Schmidt vector `q_j = v_j / ‖v_j‖`
(specification ghost). -/
noncomputable def gsq {n : ℕ} (A : Mat n ℝ) (j : Fin n) : Fin n → ℝ := fun i =>
  gsv A j i / vnorm (gsv A j)

/-- The canonical `q` state of `qrLoop` after the columns `< j` have been
processed (specification ghost): processed columns carry the normalised
Gram-Schmidt vectors, the rest are still zero-initialised. -/
noncomputable def canonQ {n : ℕ} (A : Mat n ℝ) (j : ℕ) : Mat n ℝ :=
  fun x y => if (y : ℕ) < j then gsq A y x else 0

/-- The canonical `r` state of `qrLoop` after the columns `< j` have been
processed (specification ghost): in a processed column, the diagonal holds
the residual's norm, the part above it the Gram-Schmidt dot products, and
everything else is still zero. -/
noncomputable def canonR {n : ℕ} (A : Mat n ℝ) (j : ℕ) : Mat n ℝ :=
  fun x y =>
    if (y : ℕ) < j then
      if x = y then vnorm (gsv A y)
      else if (x : ℕ) < (y : ℕ) then ∑ i2, gsq A x i2 * A i2 y
      else 0
    else 0

/-- The dot product `Σ_i u[i]·v[i]` (specification ghost used in the
orthogonality argument for Gram-Schmidt). -/
noncomputable def dotR {n : ℕ} (u v : Fin n → ℝ) : ℝ := ∑ i, u i * v i

end QR

section Eigen

/-- The iteration loop of `EigenvaluesQR` (`for iter := range maxIter`):
record the diagonal, factor `M = Q·R`, set `M ← R·Q`, and from the second
iteration on stop early when every diagonal entry moved by at most `tol`.
Structural recursion on the remaining iteration count. -/
noncomputable def eigenIter {n : ℕ} (tol : ℝ) :
    (iter : ℕ) → (remaining : ℕ) → Mat n ℝ → Except String (Mat n ℝ)
  | _, 0, cur => .ok cur
  | iter, rem + 1, cur =>
    let prevDiag := fun i : Fin n => cur i i
    match qrLoop cur with
    | .error e => .error e
    | .ok QR =>
      let next := mulMat QR.2 QR.1
      if 0 < iter ∧ ∀ i, |next i i - prevDiag i| ≤ tol then .ok next
      else eigenIter tol (iter + 1) rem next

/-- `EigenvaluesQR` from `eigenvalues.go`: validate, reject empty and
non-square inputs, convert to float64; if `maxIter ≤ 0` return the
diagonal of the unmodified input, else run the QR iteration and return the
final diagonal. -/
noncomputable def EigenvaluesQR (m : RawMatrix ℝ) (maxIter : ℤ) (tol : ℝ) :
    Except String (List ℝ) :=
  match validate m with
  | some e => .error e
  | none =>
    if m.length = 0 then .error "matrix cannot be empty"
    else if isSquare m = false then .error "matrix must be square"
    else
      let current := ofRaw m
      if maxIter ≤ 0 then .ok (List.ofFn fun i => current i i)
      else
        match eigenIter tol 0 maxIter.toNat current with
        | .error e => .error e
        | .ok cur => .ok (List.ofFn fun i => cur i i)

end Eigen

/-! ## Lemmas and theorems -/

section LULemmas
variable {K : Type} [LinearOrderedField K]

theorem luEps_pos : (0 : K) < luEps K := by
  unfold luEps
  positivity

theorem sum_eq_sum_Iio {n : ℕ} (i : Fin n) (f : Fin n → K)
    (h : ∀ j, i ≤ j → f j = 0) :
    ∑ j, f j = ∑ j ∈ Finset.Iio i, f j := by
  symm
  apply Finset.sum_subset (Finset.subset_univ _)
  intro x _ hx
  exact h x (not_lt.mp (by simpa using hx))

theorem sum_eq_sum_Iio_add {n : ℕ} (i : Fin n) (f : Fin n → K)
    (h : ∀ j, i < j → f j = 0) :
    ∑ j, f j = (∑ j ∈ Finset.Iio i, f j) + f i := by
  have h1 : ∑ j, f j = ∑ j ∈ Finset.Iic i, f j := by
    symm
    apply Finset.sum_subset (Finset.subset_univ _)
    intro x _ hx
    exact h x (not_le.mp (by simpa using hx))
  rw [h1, ← Finset.Iio_insert, Finset.sum_insert (by simp)]
  ring

theorem luSwap_inv {n : ℕ} (A : Mat n K) (i : Fin n) (st : LUState n K)
    (h : LUInv A (i : ℕ) st) : LUInv A (i : ℕ) (luSwap i st) := by
  obtain ⟨σ, ha, hsgn, hl0, hl1, hu0, hue, hr1, hr2⟩ := h
  unfold luSwap
  set p := (pivotSearch (fun k => st.a k i) i).1 with hp
  have hip : i ≤ p := (pivotSearch_spec (fun k => st.a k i) i).1
  by_cases hpi : p = i
  · rw [if_pos hpi]
    exact ⟨σ, ha, hsgn, hl0, hl1, hu0, hue, hr1, hr2⟩
  · rw [if_neg hpi]
    have swlt : ∀ r : Fin n, (r : ℕ) < (i : ℕ) → Equiv.swap i p r = r := by
      intro r hr
      apply Equiv.swap_apply_of_ne_of_ne
      · exact ne_of_lt (Fin.lt_def.mpr hr)
      · exact ne_of_lt (lt_of_lt_of_le (Fin.lt_def.mpr hr) hip)
    have swge : ∀ r : Fin n, (i : ℕ) ≤ ((Equiv.swap i p r : Fin n) : ℕ) →
        True := fun _ _ => trivial
    refine ⟨σ * Equiv.swap i p, ?_, ?_, ?_, ?_, hu0, hue, ?_, ?_⟩
    · intro r c
      simp only [Equiv.Perm.mul_apply]
      exact ha (Equiv.swap i p r) c
    · simp only [Equiv.Perm.sign_mul, hsgn,
        Equiv.Perm.sign_swap (fun hc => hpi (hc.symm)), pow_succ]
    · intro r c hc
      rcases hc with hc | hc
      · by_cases hci : (c : ℕ) < (i : ℕ)
        · simp only [if_pos hci]
          have hri : (r : ℕ) < (i : ℕ) := lt_trans hc hci
          rw [swlt r hri]
          exact hl0 r c (Or.inl hc)
        · simp only [if_neg hci]
          exact hl0 r c (Or.inl hc)
      · have hci : ¬ (c : ℕ) < (i : ℕ) := not_lt.mpr hc
        simp only [if_neg hci]
        exact hl0 r c (Or.inr hc)
    · intro c hc
      simp only [if_pos hc, swlt c hc]
      exact hl1 c hc
    · intro r c hr hrc
      simp only []
      have hswr : Equiv.swap i p r = r := swlt r hr
      have congr1 : ∀ j : Fin n,
          (if (j : ℕ) < (i : ℕ) then st.l (Equiv.swap i p r) j else st.l r j) * st.u j c
            = st.l r j * st.u j c := by
        intro j
        rw [hswr, ite_self]
      calc (∑ j : Fin n, (if (j : ℕ) < (i : ℕ) then st.l (Equiv.swap i p r) j else st.l r j)
              * st.u j c)
          = ∑ j : Fin n, st.l r j * st.u j c := Finset.sum_congr rfl (fun j _ => congr1 j)
        _ = st.a r c := hr1 r c hr hrc
        _ = st.a (Equiv.swap i p r) c := by rw [hswr]
    · intro r c hc hcr
      simp only []
      have congr2 : ∀ j : Fin n,
          (if (j : ℕ) < (i : ℕ) then st.l (Equiv.swap i p r) j else st.l r j) * st.u j c
            = st.l (Equiv.swap i p r) j * st.u j c := by
        intro j
        by_cases hj : (j : ℕ) < (i : ℕ)
        · rw [if_pos hj]
        · rw [if_neg hj]
          rw [hl0 r j (Or.inr (not_lt.mp hj)),
            hl0 (Equiv.swap i p r) j (Or.inr (not_lt.mp hj))]
      have hcsw : (c : ℕ) < ((Equiv.swap i p r : Fin n) : ℕ) := by
        by_cases hri : r = i
        · rw [hri, Equiv.swap_apply_left]
          exact lt_of_lt_of_le hc (Fin.le_def.mp hip)
        · by_cases hrp : r = p
          · rw [hrp, Equiv.swap_apply_right]
            exact hc
          · rw [Equiv.swap_apply_of_ne_of_ne hri hrp]
            exact hcr
      calc (∑ j : Fin n, (if (j : ℕ) < (i : ℕ) then st.l (Equiv.swap i p r) j else st.l r j)
              * st.u j c)
          = ∑ j : Fin n, st.l (Equiv.swap i p r) j * st.u j c :=
            Finset.sum_congr rfl (fun j _ => congr2 j)
        _ = st.a (Equiv.swap i p r) c := hr2 (Equiv.swap i p r) c hc hcsw

theorem luUL_inv {n : ℕ} (A : Mat n K) (i : Fin n) (st1 : LUState n K)
    (h : LUInv A (i : ℕ) st1)
    (hch : ¬ (|luU i st1 i i| < luEps K)) :
    LUInv A ((i : ℕ) + 1)
      { a := st1.a, l := luL i st1 (luU i st1), u := luU i st1,
        swaps := st1.swaps } := by
  obtain ⟨σ, ha, hsgn, hl0, hl1, hu0, hue, hr1, hr2⟩ := h
  have hune : luU i st1 i i ≠ 0 :=
    abs_pos.mp (lt_of_lt_of_le luEps_pos (not_lt.mp hch))
  have huoff : ∀ r c : Fin n, ¬ (r = i ∧ (i : ℕ) ≤ (c : ℕ)) →
      luU i st1 r c = st1.u r c := by
    intro r c hc
    simp only [luU, if_neg hc]
  have hurow : ∀ c : Fin n, (i : ℕ) ≤ (c : ℕ) →
      luU i st1 i c = st1.a i c - ∑ j ∈ Finset.Iio i, st1.l i j * st1.u j c := by
    intro c hc
    unfold luU
    rw [if_pos (show i = i ∧ (i : ℕ) ≤ (c : ℕ) from And.intro rfl hc)]
  have hloff : ∀ r c : Fin n, ¬ (c = i ∧ (i : ℕ) ≤ (r : ℕ)) →
      luL i st1 (luU i st1) r c = st1.l r c := by
    intro r c hc
    simp only [luL, if_neg hc]
  have hldiag : luL i st1 (luU i st1) i i = 1 := by
    unfold luL
    rw [if_pos (show i = i ∧ (i : ℕ) ≤ (i : ℕ) from And.intro rfl (le_refl _)),
      if_pos rfl]
  have hlcol : ∀ r : Fin n, (i : ℕ) < (r : ℕ) →
      luL i st1 (luU i st1) r i =
        (st1.a r i - ∑ j ∈ Finset.Iio i, st1.l r j * luU i st1 j i)
          / luU i st1 i i := by
    intro r hr
    have hri : r ≠ i := by
      intro hcon
      rw [hcon] at hr
      omega
    unfold luL
    rw [if_pos (show i = i ∧ (i : ℕ) ≤ (r : ℕ) from And.intro rfl (le_of_lt hr)),
      if_neg hri]
  refine ⟨σ, ha, hsgn, ?_, ?_, ?_, ?_, ?_, ?_⟩
  · -- l zero above diagonal and in columns ≥ i+1
    intro r c hc
    dsimp only
    by_cases hcc : c = i ∧ (i : ℕ) ≤ (r : ℕ)
    · exfalso
      obtain ⟨h1, h2⟩ := hcc
      subst h1
      rcases hc with hc | hc <;> omega
    · rw [hloff r c hcc]
      apply hl0 r c
      rcases hc with hc | hc
      · exact Or.inl hc
      · exact Or.inr (by omega)
  · -- l unit diagonal in columns < i+1
    intro c hc
    dsimp only
    by_cases hci : (c : ℕ) = (i : ℕ)
    · have : c = i := Fin.val_injective hci
      subst this
      exact hldiag
    · have hlt : (c : ℕ) < (i : ℕ) := by omega
      rw [hloff c c (by
        intro hcon
        exact hci (congrArg Fin.val hcon.1))]
      exact hl1 c hlt
  · -- u zero below diagonal and in rows ≥ i+1
    intro r c hc
    dsimp only
    by_cases hrc : r = i ∧ (i : ℕ) ≤ (c : ℕ)
    · exfalso
      obtain ⟨h1, h2⟩ := hrc
      subst h1
      rcases hc with hc | hc <;> omega
    · rw [huoff r c hrc]
      apply hu0 r c
      rcases hc with hc | hc
      · exact Or.inl hc
      · exact Or.inr (by omega)
  · -- processed diagonal entries of u clear the threshold
    intro c hc
    dsimp only
    by_cases hci : (c : ℕ) = (i : ℕ)
    · have : c = i := Fin.val_injective hci
      subst this
      exact not_lt.mp hch
    · have hlt : (c : ℕ) < (i : ℕ) := by omega
      rw [huoff c c (by
        intro hcon
        exact hci (congrArg Fin.val hcon.1))]
      exact hue c hlt
  · -- product relation on rows < i+1, upper part
    intro r c hr hrc
    dsimp only
    by_cases hri : (r : ℕ) < (i : ℕ)
    · have congr1 : ∀ j : Fin n,
          luL i st1 (luU i st1) r j * luU i st1 j c = st1.l r j * st1.u j c := by
        intro j
        have hlrj : luL i st1 (luU i st1) r j = st1.l r j :=
          hloff r j (by
            intro hcon
            omega)
        rw [hlrj]
        by_cases hji : j = i ∧ (i : ℕ) ≤ (c : ℕ)
        · have hl0r : st1.l r j = 0 := by
            rw [hji.1]
            exact hl0 r i (Or.inr (le_refl _))
          rw [hl0r, zero_mul, zero_mul]
        · rw [huoff j c hji]
      calc (∑ j, luL i st1 (luU i st1) r j * luU i st1 j c)
          = ∑ j, st1.l r j * st1.u j c :=
            Finset.sum_congr rfl (fun j _ => congr1 j)
        _ = st1.a r c := hr1 r c hri hrc
    · have hreq : r = i := Fin.val_injective (by omega)
      subst hreq
      have hic : (r : ℕ) ≤ (c : ℕ) := hrc
      have hz : ∀ j : Fin n, r < j →
          luL r st1 (luU r st1) r j * luU r st1 j c = 0 := by
        intro j hj
        have : luL r st1 (luU r st1) r j = st1.l r j :=
          hloff r j (by
            intro hcon
            have := congrArg Fin.val hcon.1
            have hj2 := Fin.lt_def.mp hj
            omega)
        rw [this, hl0 r j (Or.inl (Fin.lt_def.mp hj)), zero_mul]
      rw [sum_eq_sum_Iio_add r _ hz]
      have hIio : ∀ j ∈ Finset.Iio r,
          luL r st1 (luU r st1) r j * luU r st1 j c
            = st1.l r j * st1.u j c := by
        intro j hj
        have hjlt : j < r := Finset.mem_Iio.mp hj
        have hjne : j ≠ r := ne_of_lt hjlt
        rw [hloff r j (by
          intro hcon
          exact hjne hcon.1)]
        rw [huoff j c (by
          intro hcon
          exact hjne hcon.1)]
      rw [Finset.sum_congr rfl hIio, hldiag, one_mul, hurow c hic]
      ring
  · -- product relation on columns < i+1, strictly lower part
    intro r c hc hcr
    dsimp only
    by_cases hci : (c : ℕ) < (i : ℕ)
    · have congr2 : ∀ j : Fin n,
          luL i st1 (luU i st1) r j * luU i st1 j c = st1.l r j * st1.u j c := by
        intro j
        have hujc : luU i st1 j c = st1.u j c :=
          huoff j c (by
            intro hcon
            omega)
        rw [hujc]
        by_cases hji : j = i ∧ (i : ℕ) ≤ (r : ℕ)
        · have hu0i : st1.u j c = 0 := by
            rw [hji.1]
            exact hu0 i c (Or.inr (le_refl _))
          rw [hu0i, mul_zero, mul_zero]
        · rw [hloff r j hji]
      calc (∑ j, luL i st1 (luU i st1) r j * luU i st1 j c)
          = ∑ j, st1.l r j * st1.u j c :=
            Finset.sum_congr rfl (fun j _ => congr2 j)
        _ = st1.a r c := hr2 r c hci hcr
    · have hceq : c = i := Fin.val_injective (by omega)
      subst hceq
      have hir : (c : ℕ) < (r : ℕ) := hcr
      have hz : ∀ j : Fin n, c < j →
          luL c st1 (luU c st1) r j * luU c st1 j c = 0 := by
        intro j hj
        have hjne : j ≠ c := ne_of_gt hj
        rw [huoff j c (by
          intro hcon
          exact hjne hcon.1)]
        rw [hu0 j c (Or.inr (le_of_lt (Fin.lt_def.mp hj))), mul_zero]
      rw [sum_eq_sum_Iio_add c _ hz]
      have hIio : ∀ j ∈ Finset.Iio c,
          luL c st1 (luU c st1) r j * luU c st1 j c
            = st1.l r j * st1.u j c := by
        intro j hj
        have hjlt : j < c := Finset.mem_Iio.mp hj
        have hjne : j ≠ c := ne_of_lt hjlt
        rw [hloff r j (by
          intro hcon
          exact hjne hcon.1)]
        rw [huoff j c (by
          intro hcon
          exact hjne hcon.1)]
      rw [Finset.sum_congr rfl hIio, hlcol r hir]
      have hsum2 : (∑ j ∈ Finset.Iio c, st1.l r j * luU c st1 j c)
          = ∑ j ∈ Finset.Iio c, st1.l r j * st1.u j c := by
        apply Finset.sum_congr rfl
        intro j hj
        have hjne : j ≠ c := ne_of_lt (Finset.mem_Iio.mp hj)
        rw [huoff j c (by
          intro hcon
          exact hjne hcon.1)]
      rw [hsum2, div_mul_cancel₀ _ hune]
      ring

theorem luStep_inv {n : ℕ} (A : Mat n K) (i : Fin n) (st st' : LUState n K)
    (h : LUInv A (i : ℕ) st) (hok : luStep i st = .ok st') :
    LUInv A ((i : ℕ) + 1) st' := by
  have h1 := luSwap_inv A i st h
  unfold luStep at hok
  by_cases hch : |luU i (luSwap i st) i i| < luEps K
  · rw [if_pos hch] at hok
    exact Except.noConfusion hok
  · rw [if_neg hch] at hok
    have h2 := luUL_inv A i (luSwap i st) h1 hch
    injection hok with hok2
    rw [← hok2]
    exact h2

theorem luStep_error {n : ℕ} (i : Fin n) (st : LUState n K) (e : String)
    (h : luStep i st = .error e) : e = "matrix is singular" := by
  unfold luStep at h
  by_cases hch : |luU i (luSwap i st) i i| < luEps K
  · rw [if_pos hch] at h
    injection h with h2
    exact h2.symm
  · rw [if_neg hch] at h
    exact Except.noConfusion h

theorem luLoop_inv {n : ℕ} (A : Mat n K) (st : LUState n K)
    (h : luLoop A = .ok st) : LUInv A n st := by
  unfold luLoop at h
  refine iterFrom_inv n _ (fun i st => LUInv A i st)
    (fun i hi st1 st2 hP hs => luStep_inv A ⟨i, hi⟩ st1 st2 hP hs)
    n 0 _ st (by omega) (by omega) ?_ h
  refine ⟨1, fun r c => rfl, ?_, fun r c _ => rfl, ?_, fun r c _ => rfl, ?_, ?_, ?_⟩
  · simp
  · intro c hc
    omega
  · intro c hc
    omega
  · intro r c hr
    omega
  · intro r c hc
    omega

theorem luLoop_error {n : ℕ} (A : Mat n K) (e : String)
    (h : luLoop A = .error e) : e = "matrix is singular" := by
  unfold luLoop at h
  exact iterFrom_error n _ _
    (fun i hi st e' hs => luStep_error ⟨i, hi⟩ st e' hs) n 0 _ e h

theorem LUDecompose_ok {m : RawMatrix K} {L U : Mat m.length K} {s : ℕ}
    (h : LUDecompose m = .ok (L, U, s)) :
    validate m = none ∧ m.length ≠ 0 ∧ isSquare m = true ∧
      ∃ st : LUState m.length K, luLoop (ofRaw m) = .ok st ∧
        st.l = L ∧ st.u = U ∧ st.swaps = s := by
  unfold LUDecompose at h
  split at h
  · exact Except.noConfusion h
  · rename_i hv
    split at h
    · exact Except.noConfusion h
    · split at h
      · exact Except.noConfusion h
      · rename_i h0 hsq
        split at h
        · exact Except.noConfusion h
        · rename_i st hst
          simp only [Except.ok.injEq, Prod.mk.injEq] at h
          exact ⟨hv, h0, by simpa using hsq, st, hst, h.1, h.2.1, h.2.2⟩

/-- **C2.** For every valid, non-empty, square matrix on which
`LUDecompose` succeeds, the returned `L` has exactly `1` on every diagonal
entry and exactly `0` above the diagonal, the returned `U` has exactly `0`
below the diagonal, and `L·U` equals a row permutation of the input — the
permutation effected by the pivoting row swaps, whose parity matches the
returned swap counter. -/
theorem lu_correct (m : RawMatrix ℚ) (L U : Mat m.length ℚ) (s : ℕ)
    (hval : validate m = none) (hne : m ≠ []) (hsq : isSquare m = true)
    (h : LUDecompose m = .ok (L, U, s)) :
    (∀ i, L i i = 1) ∧
    (∀ i j : Fin m.length, (i : ℕ) < (j : ℕ) → L i j = 0) ∧
    (∀ i j : Fin m.length, (j : ℕ) < (i : ℕ) → U i j = 0) ∧
    ∃ σ : Equiv.Perm (Fin m.length),
      Equiv.Perm.sign σ = (-1) ^ s ∧
      ∀ r c, (∑ j, L r j * U j c) = ofRaw m (σ r) c := by
  obtain ⟨-, -, -, st, hloop, hL, hU, hs⟩ := LUDecompose_ok h
  obtain ⟨σ, ha, hsgn, hl0, hl1, hu0, hue, hr1, hr2⟩ := luLoop_inv (ofRaw m) st hloop
  subst hL
  subst hU
  subst hs
  refine ⟨fun i => hl1 i i.isLt, fun i j hij => hl0 i j (Or.inl hij),
    fun i j hji => hu0 i j (Or.inl hji), σ, hsgn, ?_⟩
  intro r c
  by_cases hrc : (r : ℕ) ≤ (c : ℕ)
  · rw [hr1 r c r.isLt hrc]
    exact ha r c
  · rw [hr2 r c c.isLt (by omega)]
    exact ha r c

/-- Concrete run: `LUDecompose [[5]]` succeeds with `L = [[1]]`,
`U = [[5]]` and no swaps. -/
theorem LUDecompose_five : LUDecompose ([[(5 : ℚ)]]) =
    .ok (fun _ _ => (1 : ℚ), fun _ _ => (5 : ℚ), 0) := by
  have e4 : List.finRange ([[(5 : ℚ)]] : RawMatrix ℚ).length = [⟨0, by norm_num⟩] := by
    decide
  have e5 : Finset.Iio (⟨0, by norm_num⟩ : Fin ([[(5 : ℚ)]] : RawMatrix ℚ).length) = ∅ := by
    decide
  simp only [LUDecompose, luLoop, show validate ([[(5 : ℚ)]]) = none from rfl,
    show isSquare ([[(5 : ℚ)]]) = true from rfl,
    show ([[(5 : ℚ)]] : RawMatrix ℚ).length = 1 from rfl]
  norm_num [iterFrom, luStep, luSwap, luU, luL, pivotSearch, ofRaw, luEps, e4, e5]
  constructor
  · funext r c
    have hr : r = ⟨0, by norm_num⟩ := Fin.ext (Nat.lt_one_iff.mp r.isLt)
    have hc : c = ⟨0, by norm_num⟩ := Fin.ext (Nat.lt_one_iff.mp c.isLt)
    subst hr
    subst hc
    norm_num [luL, luU, ofRaw, e5, Fin.mk.injEq]
  · funext r c
    have hr : r = ⟨0, by norm_num⟩ := Fin.ext (Nat.lt_one_iff.mp r.isLt)
    have hc : c = ⟨0, by norm_num⟩ := Fin.ext (Nat.lt_one_iff.mp c.isLt)
    subst hr
    subst hc
    norm_num [luL, luU, ofRaw, e5, Fin.mk.injEq]

/-- Concrete run: `LUDecompose [[0]]` reports a singular matrix (the only
pivot is `0`, below the `1e-12` threshold). -/
theorem LUDecompose_zero1 : LUDecompose ([[(0 : ℚ)]]) =
    .error "matrix is singular" := by
  have e4 : List.finRange ([[(0 : ℚ)]] : RawMatrix ℚ).length = [⟨0, by norm_num⟩] := by
    decide
  have e5 : Finset.Iio (⟨0, by norm_num⟩ : Fin ([[(0 : ℚ)]] : RawMatrix ℚ).length) = ∅ := by
    decide
  simp only [LUDecompose, luLoop, show validate ([[(0 : ℚ)]]) = none from rfl,
    show isSquare ([[(0 : ℚ)]]) = true from rfl,
    show ([[(0 : ℚ)]] : RawMatrix ℚ).length = 1 from rfl]
  norm_num [iterFrom, luStep, luSwap, luU, luL, pivotSearch, ofRaw, luEps, e4, e5]

/-- The claim `C2` instantiated on `[[5]]`: the hypotheses of `lu_correct`
are discharged on a concrete input. -/
theorem lu_correct_witness :
    ∃ (L U : Mat 1 ℚ) (s : ℕ), LUDecompose ([[(5 : ℚ)]]) = .ok (L, U, s) ∧
      ((∀ i, L i i = 1) ∧
      (∀ i j : Fin 1, (i : ℕ) < (j : ℕ) → L i j = 0) ∧
      (∀ i j : Fin 1, (j : ℕ) < (i : ℕ) → U i j = 0) ∧
      ∃ σ : Equiv.Perm (Fin 1),
        Equiv.Perm.sign σ = (-1) ^ s ∧
        ∀ r c, (∑ j, L r j * U j c) = ofRaw ([[(5 : ℚ)]]) (σ r) c) :=
  ⟨_, _, _, LUDecompose_five,
    lu_correct ([[(5 : ℚ)]]) _ _ 0 rfl (by decide) rfl LUDecompose_five⟩

/-- When the structural guards pass, a failing `LUDecompose` can only
report a singular matrix. -/
theorem LUDecompose_error_of_guards {m : RawMatrix K} (hv : validate m = none)
    (h0 : ¬ m.length = 0) (hsq : isSquare m = true) {e : String}
    (h : LUDecompose m = .error e) : e = "matrix is singular" := by
  unfold LUDecompose at h
  rw [hv] at h
  rw [if_neg h0] at h
  rw [if_neg (by simp [hsq])] at h
  cases hl : luLoop (ofRaw (K := K) m) with
  | error e2 =>
    rw [hl] at h
    injection h with h2
    rw [← h2]
    exact luLoop_error _ _ hl
  | ok st =>
    rw [hl] at h
    exact Except.noConfusion h

/-- No string of the form `"invalid matrix: " ++ s` is the singularity
message, so a wrapped validation error can never be mistaken for it. -/
theorem invalid_prefix_ne (s : String) :
    "invalid matrix: " ++ s ≠ "matrix is singular" := by
  intro h
  have h2 := congrArg String.data h
  rw [String.data_append] at h2
  exact absurd (List.head_eq_of_cons_eq h2) (by decide)

/-- **C9.** Whenever `LUDecompose` returns without error, every diagonal
entry of the returned `U` has absolute value at least the `1e-12`
singularity threshold, so the divisions `/ u[i][i]` filling `L`'s
sub-diagonal columns never divide by zero. -/
theorem lu_pivots_above_threshold (m : RawMatrix ℚ) (L U : Mat m.length ℚ)
    (s : ℕ) (h : LUDecompose m = .ok (L, U, s)) :
    ∀ i, (1 : ℚ) / 10 ^ 12 ≤ |U i i| := by
  obtain ⟨-, -, -, st, hloop, -, hU, -⟩ := LUDecompose_ok h
  obtain ⟨σ, -, -, -, -, -, hue, -, -⟩ := luLoop_inv (ofRaw m) st hloop
  subst hU
  exact fun i => hue i i.isLt

set_option maxHeartbeats 1000000 in
/-- The claim `C9` instantiated on `[[5]]`. -/
theorem lu_pivots_above_threshold_witness :
    ∃ (L U : Mat 1 ℚ) (s : ℕ), LUDecompose ([[(5 : ℚ)]]) = .ok (L, U, s) ∧
      ∀ i, (1 : ℚ) / 10 ^ 12 ≤ |U i i| :=
  ⟨_, _, _, LUDecompose_five,
    lu_pivots_above_threshold ([[(5 : ℚ)]]) _ _ 0 LUDecompose_five⟩

/-- **C4.** Whenever `LUDecompose` succeeds, `Det` returns the product of
the diagonal entries of `U`, negated exactly when the returned swap count
is odd; in particular `Det [[3,8],[4,6]] = -14` (one swap) and
`Det [[5]] = 5`. -/
theorem det_formula :
    (∀ (m : RawMatrix ℚ) (L U : Mat m.length ℚ) (s : ℕ),
      LUDecompose m = .ok (L, U, s) →
      Det m = .ok (if s % 2 ≠ 0 then -∏ i, U i i else ∏ i, U i i)) ∧
    Det ([[(3 : ℚ), 8], [4, 6]]) = .ok (-14) ∧
    Det ([[(5 : ℚ)]]) = .ok 5 := by
  have hgen : ∀ (m : RawMatrix ℚ) (L U : Mat m.length ℚ) (s : ℕ),
      LUDecompose m = .ok (L, U, s) →
      Det m = .ok (if s % 2 ≠ 0 then -∏ i, U i i else ∏ i, U i i) := by
    intro m L U s h
    obtain ⟨hv, h0, hsq, -⟩ := LUDecompose_ok h
    unfold Det
    rw [hv, if_neg h0, if_neg (by simp [hsq]), h]
  refine ⟨hgen, ?_, ?_⟩
  · have e1 : validate ([[(3 : ℚ), 8], [4, 6]]) = none := rfl
    have e2 : isSquare ([[(3 : ℚ), 8], [4, 6]]) = true := rfl
    have e3 : ([[(3 : ℚ), 8], [4, 6]] : RawMatrix ℚ).length = 2 := rfl
    have e4 : List.finRange ([[(3 : ℚ), 8], [4, 6]] : RawMatrix ℚ).length =
        [⟨0, by norm_num⟩, ⟨1, by norm_num⟩] := by decide
    have e5 : Finset.Iio
        (⟨0, by norm_num⟩ : Fin ([[(3 : ℚ), 8], [4, 6]] : RawMatrix ℚ).length) = ∅ := by
      decide
    have e6 : Finset.Iio
        (⟨1, by norm_num⟩ : Fin ([[(3 : ℚ), 8], [4, 6]] : RawMatrix ℚ).length) =
        {⟨0, by norm_num⟩} := by decide
    have e7 : (Finset.univ :
        Finset (Fin ([[(3 : ℚ), 8], [4, 6]] : RawMatrix ℚ).length)) =
        {⟨0, by norm_num⟩, ⟨1, by norm_num⟩} := by decide
    have e8 : ¬ (|(7 : ℚ) / 2| < 1 / 1000000000000) := by
      rw [abs_of_nonneg] <;> norm_num
    simp only [Det, LUDecompose, luLoop, e1, e2, e3]
    norm_num [iterFrom, luStep, luSwap, luU, luL, pivotSearch, ofRaw, luEps,
      e4, e5, e6, e7, e8, Equiv.swap_apply_def, Fin.mk_lt_mk, Fin.mk.injEq,
      Prod.ext_iff, Finset.prod_insert, Finset.prod_singleton,
      Finset.mem_singleton]
  · rw [hgen ([[(5 : ℚ)]]) _ _ 0 LUDecompose_five]
    have e7 : (Finset.univ : Finset (Fin ([[(5 : ℚ)]] : RawMatrix ℚ).length)) =
        {⟨0, by norm_num⟩} := by decide
    norm_num [e7]

set_option maxHeartbeats 1000000 in
/-- The general conjunct of claim `C4` instantiated on `[[5]]`. -/
theorem det_formula_witness :
    ∃ (L U : Mat 1 ℚ) (s : ℕ), LUDecompose ([[(5 : ℚ)]]) = .ok (L, U, s) ∧
      Det ([[(5 : ℚ)]]) = .ok (if s % 2 ≠ 0 then -∏ i, U i i else ∏ i, U i i) :=
  ⟨_, _, _, LUDecompose_five, det_formula.1 ([[(5 : ℚ)]]) _ _ 0 LUDecompose_five⟩

/-- **C1.** For every valid, non-empty, square matrix on which
`LUDecompose` reports singularity, `Det` returns `0` with no error; and no
call of `Det`, on any input whatsoever, ever surfaces the singularity
error. -/
theorem det_singular_to_zero (m : RawMatrix ℚ) :
    (validate m = none → m ≠ [] → isSquare m = true →
      LUDecompose m = .error "matrix is singular" → Det m = .ok 0) ∧
    ∀ e, Det m = .error e → e ≠ "matrix is singular" := by
  constructor
  · intro hv hne hsq h
    unfold Det
    rw [hv, if_neg (fun hc => hne (List.length_eq_zero.mp hc)),
      if_neg (by simp [hsq]), h]
    rfl
  · intro e h
    unfold Det at h
    split at h
    · rename_i e0 hv
      injection h with h2
      rw [← h2]
      exact invalid_prefix_ne e0
    · split at h
      · injection h with h2
        rw [← h2]
        decide
      · split at h
        · injection h with h2
          rw [← h2]
          decide
        · split at h
          · rename_i e0 hlu
            by_cases he : e0 = "matrix is singular"
            · rw [if_pos he] at h
              exact Except.noConfusion h
            · rw [if_neg he] at h
              injection h with h2
              rw [← h2]
              exact he
          · exact Except.noConfusion h

/-- The claim `C1` instantiated on the singular input `[[0]]` (for the
conversion to `0`) and the non-square input `[[1,2]]` (for the
never-a-singularity-error part). -/
theorem det_singular_to_zero_witness :
    (LUDecompose ([[(0 : ℚ)]]) = .error "matrix is singular" ∧
      Det ([[(0 : ℚ)]]) = .ok 0) ∧
    (Det ([[(1 : ℚ), 2]]) = .error "matrix is not square" ∧
      "matrix is not square" ≠ "matrix is singular") :=
  ⟨⟨LUDecompose_zero1,
    (det_singular_to_zero ([[(0 : ℚ)]])).1 rfl (by decide) rfl LUDecompose_zero1⟩,
   ⟨rfl, (det_singular_to_zero ([[(1 : ℚ), 2]])).2 "matrix is not square" rfl⟩⟩

end LULemmas

section ErrorKindLemmas

/-- **C6.** On a valid, non-empty, square matrix, `EigenvaluesQR` with
`maxIter ≤ 0` performs no QR iteration and returns exactly the diagonal of
the unmodified input, for any tolerance. -/
theorem eigen_no_iteration (m : RawMatrix ℝ) (maxIter : ℤ) (tol : ℝ)
    (hv : validate m = none) (hne : m ≠ []) (hsq : isSquare m = true)
    (hmi : maxIter ≤ 0) :
    EigenvaluesQR m maxIter tol = .ok (List.ofFn fun i => ofRaw m i i) := by
  unfold EigenvaluesQR
  rw [hv, if_neg (fun hc => hne (List.length_eq_zero.mp hc)),
    if_neg (by simp [hsq]), if_pos hmi]

/-- The claim `C6` instantiated on `[[1,2],[3,4]]` with `maxIter = 0`. -/
theorem eigen_no_iteration_witness :
    EigenvaluesQR ([[(1 : ℝ), 2], [3, 4]]) 0 0 =
      .ok (List.ofFn fun i => ofRaw ([[(1 : ℝ), 2], [3, 4]]) i i) :=
  eigen_no_iteration ([[(1 : ℝ), 2], [3, 4]]) 0 0 rfl (by simp) rfl (le_refl 0)

/-- Counterexample to the claim `C5` as stated: `Inverse` reports the very
same error for a 0-row input as for a non-empty non-square input, so its
empty-input rejection is not programmatically distinguishable from its
non-square rejection. -/
theorem inverse_empty_error_not_distinct :
    Inverse ([] : RawMatrix ℚ) = .error "cannot invert a non-square matrix" ∧
    Inverse ([[(1 : ℚ), 2]]) = .error "cannot invert a non-square matrix" :=
  ⟨rfl, rfl⟩

/-- **C5 (amended).** `LUDecompose`, `QRDecompose`, `Det` and
`EigenvaluesQR` each reject a 0-row matrix with an empty-input error kind
distinct from the error kind they report for a valid, non-empty,
non-square matrix; `Inverse`, which has no separate empty check, rejects a
0-row matrix with the same non-square error it reports for a non-empty
non-square matrix. -/
theorem engine_error_kinds :
    (LUDecompose ([] : RawMatrix ℚ) = .error "matrix is empty" ∧
     (∀ m : RawMatrix ℚ, validate m = none → m ≠ [] → isSquare m = false →
       LUDecompose m = .error "matrix is not square") ∧
     "matrix is empty" ≠ "matrix is not square") ∧
    (QRDecompose ([] : RawMatrix ℝ) = .error "empty matrix" ∧
     (∀ m : RawMatrix ℝ, validate m = none → m ≠ [] → isSquare m = false →
       QRDecompose m = .error "matrix must be square") ∧
     "empty matrix" ≠ "matrix must be square") ∧
    (Det ([] : RawMatrix ℚ) = .error "matrix is empty" ∧
     (∀ m : RawMatrix ℚ, validate m = none → m ≠ [] → isSquare m = false →
       Det m = .error "matrix is not square") ∧
     "matrix is empty" ≠ "matrix is not square") ∧
    ((∀ maxIter tol,
       EigenvaluesQR ([] : RawMatrix ℝ) maxIter tol = .error "matrix cannot be empty") ∧
     (∀ (m : RawMatrix ℝ) maxIter tol, validate m = none → m ≠ [] →
       isSquare m = false →
       EigenvaluesQR m maxIter tol = .error "matrix must be square") ∧
     "matrix cannot be empty" ≠ "matrix must be square") ∧
    (Inverse ([] : RawMatrix ℚ) = .error "cannot invert a non-square matrix" ∧
     ∀ m : RawMatrix ℚ, validate m = none → isSquare m = false →
       Inverse m = .error "cannot invert a non-square matrix") := by
  refine ⟨⟨rfl, ?_, by decide⟩, ⟨rfl, ?_, by decide⟩, ⟨rfl, ?_, by decide⟩,
    ⟨fun maxIter tol => rfl, ?_, by decide⟩, rfl, ?_⟩
  · intro m hv hne hsq
    unfold LUDecompose
    rw [hv, if_neg (fun hc => hne (List.length_eq_zero.mp hc)), if_pos hsq]
  · intro m hv hne hsq
    unfold QRDecompose
    rw [hv, if_neg (fun hc => hne (List.length_eq_zero.mp hc)), if_pos hsq]
  · intro m hv hne hsq
    unfold Det
    rw [hv, if_neg (fun hc => hne (List.length_eq_zero.mp hc)), if_pos hsq]
  · intro m maxIter tol hv hne hsq
    unfold EigenvaluesQR
    rw [hv, if_neg (fun hc => hne (List.length_eq_zero.mp hc)), if_pos hsq]
  · intro m hv hsq
    unfold Inverse
    rw [hv, if_pos hsq]

/-- The amended claim `C5` instantiated on the non-square input `[[1,2]]`
for each engine. -/
theorem engine_error_kinds_witness :
    LUDecompose ([[(1 : ℚ), 2]]) = .error "matrix is not square" ∧
    QRDecompose ([[(1 : ℝ), 2]]) = .error "matrix must be square" ∧
    Det ([[(1 : ℚ), 2]]) = .error "matrix is not square" ∧
    EigenvaluesQR ([[(1 : ℝ), 2]]) 5 0 = .error "matrix must be square" ∧
    Inverse ([[(1 : ℚ), 2]]) = .error "cannot invert a non-square matrix" :=
  ⟨engine_error_kinds.1.2.1 ([[(1 : ℚ), 2]]) rfl (by simp) rfl,
   engine_error_kinds.2.1.2.1 ([[(1 : ℝ), 2]]) rfl (by simp) rfl,
   engine_error_kinds.2.2.1.2.1 ([[(1 : ℚ), 2]]) rfl (by simp) rfl,
   engine_error_kinds.2.2.2.1.2.1 ([[(1 : ℝ), 2]]) 5 0 rfl (by simp) rfl,
   engine_error_kinds.2.2.2.2.2 ([[(1 : ℚ), 2]]) rfl rfl⟩

end ErrorKindLemmas

section GJLemmas
variable {K : Type} [LinearOrderedField K]

theorem gjEps_pos : (0 : K) < gjEps K := by
  unfold gjEps
  positivity

theorem gjSwap_inv {n : ℕ} (A : Mat n K) (i p : Fin n) (hip : i ≤ p)
    (aug : Aug n K) (h : GJInv A (i : ℕ) aug) :
    GJInv A (i : ℕ) (gjSwap i p aug) := by
  obtain ⟨G, hl, hr, hid⟩ := h
  unfold gjSwap
  by_cases hpi : p = i
  · rw [if_pos hpi]
    exact ⟨G, hl, hr, hid⟩
  · rw [if_neg hpi]
    refine ⟨fun r c => G (Equiv.swap i p r) c, ?_, ?_, ?_⟩
    · intro r c
      show aug (Equiv.swap i p r) (Sum.inl c) = _
      rw [hl]
      simp only [Matrix.mul_apply]
    · intro r c
      exact hr (Equiv.swap i p r) c
    · intro r c hc
      show aug (Equiv.swap i p r) (Sum.inl c) = _
      rw [hid _ c hc]
      have hnec : ∀ q : Fin n, (i : ℕ) ≤ (q : ℕ) → ¬ (q = c) := by
        intro q hq hqc
        subst hqc
        omega
      by_cases hri : r = i
      · subst hri
        rw [Equiv.swap_apply_left, if_neg (hnec p (Fin.le_def.mp hip)),
          if_neg (hnec r (le_refl _))]
      · by_cases hrp : r = p
        · subst hrp
          rw [Equiv.swap_apply_right, if_neg (hnec i (le_refl _)),
            if_neg (hnec r (Fin.le_def.mp hip))]
        · rw [Equiv.swap_apply_of_ne_of_ne hri hrp]

theorem gjScale_inv {n : ℕ} (A : Mat n K) (i : Fin n) (aug : Aug n K)
    (h : GJInv A (i : ℕ) aug) (hpiv : aug i (Sum.inl i) ≠ 0) :
    GJInv A (i : ℕ) (gjScale i aug) := by
  obtain ⟨G, hl, hr, hid⟩ := h
  refine ⟨fun r c => if r = i then G i c / aug i (Sum.inl i) else G r c,
    ?_, ?_, ?_⟩
  · intro r c
    unfold gjScale
    by_cases hri : r = i
    · rw [if_pos hri, hri]
      calc aug i (Sum.inl c) / aug i (Sum.inl i)
          = (∑ k, G i k * A k c) / aug i (Sum.inl i) := by
            rw [hl, Matrix.mul_apply]
        _ = ∑ k, (G i k / aug i (Sum.inl i)) * A k c := by
            rw [Finset.sum_div]
            exact Finset.sum_congr rfl (fun k _ => (div_mul_eq_mul_div _ _ _).symm)
        _ = _ := by
            rw [Matrix.mul_apply]
            exact Finset.sum_congr rfl (fun k _ => by simp)
    · rw [if_neg hri, hl, Matrix.mul_apply, Matrix.mul_apply]
      exact Finset.sum_congr rfl (fun k _ => by simp [hri])
  · intro r c
    unfold gjScale
    beta_reduce
    by_cases hri : r = i
    · rw [if_pos hri, if_pos hri, hr]
    · rw [if_neg hri, if_neg hri, hr]
  · intro r c hc
    unfold gjScale
    have hic : ¬ (i = c) := by
      intro hic
      subst hic
      omega
    by_cases hri : r = i
    · rw [if_pos hri, hri, hid i c hc, if_neg hic]
      exact zero_div _
    · rw [if_neg hri]
      exact hid r c hc

theorem gjElim_inv {n : ℕ} (A : Mat n K) (i : Fin n) (aug : Aug n K)
    (h : GJInv A (i : ℕ) aug) :
    GJInv A (i : ℕ) (gjElim i aug) := by
  obtain ⟨G, hl, hr, hid⟩ := h
  refine ⟨Matrix.of (fun r c => if r = i then G r c
      else G r c - aug r (Sum.inl i) * G i c), ?_, ?_, ?_⟩
  · intro r c
    unfold gjElim
    by_cases hri : r = i
    · rw [if_pos hri, hl, Matrix.mul_apply, Matrix.mul_apply]
      exact Finset.sum_congr rfl (fun k _ => by simp [hri])
    · rw [if_neg hri]
      have hrhs : (Matrix.of (fun r c => if r = i then G r c
          else G r c - aug r (Sum.inl i) * G i c) * A) r c
          = (G * A) r c - aug r (Sum.inl i) * (G * A) i c := by
        rw [Matrix.mul_apply, Matrix.mul_apply, Matrix.mul_apply,
          Finset.mul_sum, ← Finset.sum_sub_distrib]
        refine Finset.sum_congr rfl (fun k _ => ?_)
        rw [Matrix.of_apply]
        simp only [if_neg hri]
        ring
      rw [hrhs, hl, hl, hl]
  · intro r c
    unfold gjElim
    by_cases hri : r = i
    · rw [if_pos hri, hr, Matrix.of_apply, if_pos hri]
    · rw [if_neg hri, hr, hr, Matrix.of_apply, if_neg hri]
  · intro r c hc
    unfold gjElim
    by_cases hri : r = i
    · rw [if_pos hri]
      exact hid r c hc
    · rw [if_neg hri, hid r c hc, hid i c hc,
        if_neg (show ¬ (i = c) from fun hic => by subst hic; omega),
        mul_zero, sub_zero]

theorem gjStep_inv {n : ℕ} (A : Mat n K) (i : Fin n) (aug aug' : Aug n K)
    (h : GJInv A (i : ℕ) aug) (hok : gjStep i aug = .ok aug') :
    GJInv A ((i : ℕ) + 1) aug' := by
  unfold gjStep at hok
  by_cases hch : (pivotSearch (fun k => aug k (Sum.inl i)) i).2 < gjEps K
  · rw [if_pos hch] at hok
    exact Except.noConfusion hok
  · rw [if_neg hch] at hok
    injection hok with hok2
    have hip : i ≤ (pivotSearch (fun k => aug k (Sum.inl i)) i).1 :=
      (pivotSearch_spec _ _).1
    have hval : (pivotSearch (fun k => aug k (Sum.inl i)) i).2 =
        |aug (pivotSearch (fun k => aug k (Sum.inl i)) i).1 (Sum.inl i)| :=
      (pivotSearch_spec _ _).2
    have hpivswap :
        gjSwap i (pivotSearch (fun k => aug k (Sum.inl i)) i).1 aug i (Sum.inl i)
          = aug (pivotSearch (fun k => aug k (Sum.inl i)) i).1 (Sum.inl i) := by
      unfold gjSwap
      by_cases hpi : (pivotSearch (fun k => aug k (Sum.inl i)) i).1 = i
      · rw [if_pos hpi, hpi]
      · rw [if_neg hpi]
        rw [Equiv.swap_apply_left]
    have hne :
        gjSwap i (pivotSearch (fun k => aug k (Sum.inl i)) i).1 aug i (Sum.inl i) ≠ 0 := by
      rw [hpivswap]
      apply abs_pos.mp
      rw [← hval]
      exact lt_of_lt_of_le gjEps_pos (not_lt.mp hch)
    have h3 := gjElim_inv A i _
      (gjScale_inv A i _ (gjSwap_inv A i _ hip aug h) hne)
    obtain ⟨G, hl, hr, hid⟩ := h3
    rw [← hok2]
    refine ⟨G, hl, hr, ?_⟩
    intro r c hc
    by_cases hci : (c : ℕ) < (i : ℕ)
    · exact hid r c hci
    · have hceq : c = i := Fin.val_injective (by omega)
      subst hceq
      have hone : gjScale c
          (gjSwap c (pivotSearch (fun k => aug k (Sum.inl c)) c).1 aug) c (Sum.inl c) = 1 := by
        unfold gjScale
        rw [if_pos rfl]
        exact div_self hne
      unfold gjElim
      by_cases hri : r = c
      · rw [if_pos hri, hri, hone, if_pos rfl]
      · rw [if_neg hri, hone, mul_one, sub_self, if_neg hri]

theorem gjLoop_inv {n : ℕ} (A : Mat n K) (aug0 aug : Aug n K)
    (h : gjLoop aug0 = .ok aug) (h0 : GJInv A 0 aug0) : GJInv A n aug := by
  unfold gjLoop at h
  exact iterFrom_inv n _ (fun i aug => GJInv A i aug)
    (fun i hi a1 a2 hP hs => gjStep_inv A ⟨i, hi⟩ a1 a2 hP hs)
    n 0 _ aug (by omega) (by omega) h0 h

theorem Inverse_ok {m : RawMatrix K} {Inv : Mat m.length K}
    (h : Inverse m = .ok Inv) :
    validate m = none ∧ isSquare m = true ∧
      ∃ aug : Aug m.length K,
        gjLoop (fun i c => match c with
          | Sum.inl j => ofRaw m i j
          | Sum.inr j => if j = i then 1 else 0) = .ok aug ∧
        Inv = fun i j => aug i (Sum.inr j) := by
  unfold Inverse at h
  split at h
  · exact Except.noConfusion h
  · rename_i hv
    split at h
    · exact Except.noConfusion h
    · rename_i hsq
      split at h
      · exact Except.noConfusion h
      · rename_i aug haug
        injection h with h2
        exact ⟨hv, by simpa using hsq, aug, haug, h2.symm⟩

theorem Inverse_mul {m : RawMatrix K} {Inv : Mat m.length K}
    (h : Inverse m = .ok Inv) :
    Inv * ofRaw m = 1 ∧ ofRaw m * Inv = 1 := by
  obtain ⟨hv, hsq, aug, hloop, hInv⟩ := Inverse_ok h
  have hinit : GJInv (ofRaw m) 0 (fun i c => match c with
      | Sum.inl j => ofRaw m i j
      | Sum.inr j => if j = i then 1 else 0) := by
    refine ⟨1, ?_, ?_, ?_⟩
    · intro r c
      rw [Matrix.one_mul]
    · intro r c
      rw [Matrix.one_apply]
      simp [eq_comm]
    · intro r c hc
      omega
  have hfin := gjLoop_inv (ofRaw m) _ aug hloop hinit
  obtain ⟨G, hl, hr, hid⟩ := hfin
  have hGA : G * ofRaw m = 1 := by
    ext r c
    rw [← hl r c, hid r c c.isLt, Matrix.one_apply]
  have hInvG : Inv = G := by
    rw [hInv]
    funext i j
    exact hr i j
  rw [hInvG]
  exact ⟨hGA, Matrix.mul_eq_one_comm.mp hGA⟩

theorem isSquare_len {K : Type} (m : RawMatrix K) (h : isSquare m = true) :
    m ≠ [] ∧ (m.headD []).length = m.length := by
  cases m with
  | nil => exact absurd h (by simp [isSquare])
  | cons r0 t =>
    refine ⟨by simp, ?_⟩
    unfold isSquare at h
    simp only [decide_eq_true_eq] at h
    simpa using h.symm

theorem toRaw_length {K : Type} {n : ℕ} (N : Mat n K) : (toRaw N).length = n := by
  unfold toRaw
  rw [List.length_ofFn]

theorem toRaw_getD {K : Type} {n : ℕ} (N : Mat n K) (i : ℕ) (hi : i < n) :
    (toRaw N).getD i [] = List.ofFn (fun j => N ⟨i, hi⟩ j) := by
  unfold toRaw
  rw [List.getD_eq_getElem?_getD, List.getElem?_ofFn]
  simp [List.ofFnNthVal, hi]

theorem validate_toRaw {K : Type} [LinearOrderedField K] {n : ℕ} (N : Mat n K) :
    validate (toRaw N) = none := by
  cases hN : toRaw N with
  | nil => rfl
  | cons r0 t =>
    have hr0 : ∀ i : ℕ, i < (r0 :: t).length →
        ((r0 :: t).getD i []).length = r0.length := by
      intro i hi
      have hlen : (r0 :: t).length = n := by
        rw [← hN, toRaw_length]
      have hin : i < n := by omega
      have h0n : 0 < n := by omega
      have h1 := toRaw_getD N i hin
      have h2 := toRaw_getD N 0 h0n
      rw [hN] at h1 h2
      have hr0eq : r0 = List.ofFn (fun j => N ⟨0, h0n⟩ j) := by
        simpa using h2
      rw [h1, hr0eq]
      simp
    have hfind : (List.range (r0 :: t).length).find?
        (fun i => ((r0 :: t).getD i []).length ≠ r0.length) = none := by
      rw [List.find?_eq_none]
      intro i hi
      simp only [List.mem_range] at hi
      simpa using hr0 i hi
    show (match (List.range (r0 :: t).length).find?
        (fun i => ((r0 :: t).getD i []).length ≠ r0.length) with
      | some i => some (validateMsg i r0.length ((r0 :: t).getD i []).length)
      | none => none) = none
    rw [hfind]

theorem entry_ofFn {K : Type} [Zero K] {a b : ℕ} (f : Fin a → Fin b → K)
    (i : Fin a) (j : Fin b) :
    entry (List.ofFn fun x => List.ofFn fun y => f x y) (i : ℕ) (j : ℕ)
      = f i j := by
  unfold entry
  have h1 : (List.ofFn fun x => List.ofFn fun y => f x y).getD (i : ℕ) []
      = List.ofFn fun y => f i y := by
    rw [List.getD_eq_getElem?_getD, List.getElem?_ofFn]
    simp [List.ofFnNthVal, i.isLt]
  rw [h1, List.getD_eq_getElem?_getD, List.getElem?_ofFn]
  simp [List.ofFnNthVal, j.isLt]

theorem entry_toRaw {K : Type} [LinearOrderedField K] {n : ℕ} (N : Mat n K)
    (i j : Fin n) : entry (toRaw N) (i : ℕ) (j : ℕ) = N i j := by
  unfold toRaw
  exact entry_ofFn (fun x y => N x y) i j

theorem toRaw_headD_length {K : Type} {n : ℕ} (N : Mat n K) (hn : 0 < n) :
    ((toRaw N).headD []).length = n := by
  have h := toRaw_getD N 0 hn
  have : (toRaw N).headD [] = (toRaw N).getD 0 [] := by
    cases hN : toRaw N with
    | nil =>
      have := toRaw_length N
      rw [hN] at this
      simp at this
      omega
    | cons r0 t => rfl
  rw [this, h]
  simp

theorem sum_fin_congr {M : Type} [AddCommMonoid M] {a b : ℕ} (h : a = b)
    (F : ℕ → M) : (∑ k : Fin a, F (k : ℕ)) = ∑ k : Fin b, F (k : ℕ) := by
  subst h
  rfl

/-- **C3.** For every valid square matrix on which `Inverse` succeeds,
`Multiply` of the matrix with the returned inverse succeeds and yields
exactly the identity matrix elementwise (exact arithmetic; in particular
every entry is within any positive tolerance of the identity's). -/
theorem inverse_correct (m : RawMatrix ℚ) (Inv : Mat m.length ℚ)
    (hv : validate m = none) (hsq : isSquare m = true)
    (h : Inverse m = .ok Inv) :
    ∃ P : RawMatrix ℚ, Multiply m (toRaw Inv) = .ok P ∧
      ∀ i j : Fin m.length, entry P (i : ℕ) (j : ℕ) =
        if i = j then (1 : ℚ) else 0 := by
  have hmul : ofRaw m * Inv = 1 := (Inverse_mul h).2
  obtain ⟨hne, hhead⟩ := isSquare_len m hsq
  have hn0 : 0 < m.length := by
    cases m with
    | nil => exact absurd rfl hne
    | cons r0 t => simp
  unfold Multiply
  rw [hv, validate_toRaw]
  rw [if_neg (by
    rw [toRaw_length]
    omega)]
  rw [if_neg (fun hc => hc (by rw [hhead, toRaw_length]))]
  refine ⟨_, rfl, ?_⟩
  intro i j
  have hj2 : (j : ℕ) < ((toRaw Inv).headD []).length := by
    rw [toRaw_headD_length Inv hn0]
    exact j.isLt
  have hPrograms := entry_ofFn
    (fun (i2 : Fin m.length) (j2 : Fin ((toRaw Inv).headD []).length) =>
      ∑ k : Fin (toRaw Inv).length, entry m (i2 : ℕ) (k : ℕ) *
        entry (toRaw Inv) (k : ℕ) (j2 : ℕ)) i ⟨(j : ℕ), hj2⟩
  rw [hPrograms]
  rw [sum_fin_congr (toRaw_length Inv)
    (fun kn => entry m (i : ℕ) kn * entry (toRaw Inv) kn (j : ℕ))]
  have hterm : ∀ k : Fin m.length,
      entry m (i : ℕ) (k : ℕ) * entry (toRaw Inv) (k : ℕ) (j : ℕ)
        = ofRaw m i k * Inv k j := by
    intro k
    rw [entry_toRaw Inv k j]
    rfl
  rw [Finset.sum_congr rfl (fun k _ => hterm k)]
  have : (∑ k, ofRaw m i k * Inv k j) = (ofRaw m * Inv) i j :=
    (Matrix.mul_apply).symm
  rw [this, hmul, Matrix.one_apply]

/-- Concrete run: `Inverse [[5]]` succeeds with inverse `[[1/5]]`. -/
theorem Inverse_five : Inverse ([[(5 : ℚ)]]) = .ok (fun _ _ => (1 : ℚ) / 5) := by
  have e4 : List.finRange ([[(5 : ℚ)]] : RawMatrix ℚ).length = [⟨0, by norm_num⟩] := by
    decide
  have e8 : ¬ (|(5 : ℚ)| < 1 / 10000000000) := by
    rw [abs_of_nonneg] <;> norm_num
  simp only [Inverse, gjLoop, show validate ([[(5 : ℚ)]]) = none from rfl,
    show isSquare ([[(5 : ℚ)]]) = true from rfl,
    show ([[(5 : ℚ)]] : RawMatrix ℚ).length = 1 from rfl]
  norm_num [iterFrom, gjStep, gjSwap, gjScale, gjElim, pivotSearch, ofRaw,
    gjEps, e4, e8]
  funext r c
  have hr : r = ⟨0, by norm_num⟩ := Fin.ext (Nat.lt_one_iff.mp r.isLt)
  have hc : c = ⟨0, by norm_num⟩ := Fin.ext (Nat.lt_one_iff.mp c.isLt)
  subst hr
  subst hc
  norm_num [gjElim, gjScale, gjSwap, ofRaw, Fin.mk.injEq]

set_option maxHeartbeats 1000000 in
/-- The claim `C3` instantiated on `[[5]]` (inverse `[[1/5]]`). -/
theorem inverse_correct_witness :
    ∃ (Inv : Mat 1 ℚ) (P : RawMatrix ℚ),
      Inverse ([[(5 : ℚ)]]) = .ok Inv ∧
      Multiply ([[(5 : ℚ)]]) (toRaw Inv) = .ok P ∧
      ∀ i j : Fin 1, entry P (i : ℕ) (j : ℕ) = if i = j then (1 : ℚ) else 0 := by
  obtain ⟨P, h1, h2⟩ := inverse_correct ([[(5 : ℚ)]]) _ rfl rfl Inverse_five
  exact ⟨_, P, Inverse_five, h1, h2⟩

end GJLemmas

section QRLemmas

theorem qrEps_pos : (0 : ℝ) < qrEps := by
  unfold qrEps
  positivity

theorem gsv_eq {n : ℕ} (A : Mat n ℝ) (j : Fin n) :
    gsv A j = fun i => A i j - ∑ k ∈ Finset.Iio j,
      (∑ i2, gsq A k i2 * A i2 j) * gsq A k i := by
  funext i
  rw [gsv]
  congr 1
  rw [← Finset.sum_attach (Finset.Iio j)
    (fun k => (∑ i2, gsq A k i2 * A i2 j) * gsq A k i)]
  rfl

theorem qrV_canon {n : ℕ} (A : Mat n ℝ) (j : Fin n) :
    qrV A (canonQ A (j : ℕ)) j = gsv A j := by
  funext i
  rw [gsv_eq]
  unfold qrV
  congr 1
  apply Finset.sum_congr rfl
  intro k hk
  have hk2 : ((k : ℕ) < (j : ℕ)) = True :=
    eq_true (Fin.lt_def.mp (Finset.mem_Iio.mp hk))
  simp only [canonQ, hk2, if_true]

theorem canonQ_zero {n : ℕ} (A : Mat n ℝ) :
    canonQ A 0 = (fun _ _ => 0) := by
  funext x y
  simp [canonQ]

theorem canonR_zero {n : ℕ} (A : Mat n ℝ) :
    canonR A 0 = (fun _ _ => 0) := by
  funext x y
  simp [canonR]

theorem qrStep_canon_ok {n : ℕ} (A : Mat n ℝ) (j : Fin n)
    (h : ¬ (vnorm (gsv A j) < qrEps)) :
    qrStep A j (canonQ A (j : ℕ), canonR A (j : ℕ)) =
      .ok (canonQ A ((j : ℕ) + 1), canonR A ((j : ℕ) + 1)) := by
  unfold qrStep
  simp only []
  rw [qrV_canon, if_neg h]
  refine congrArg Except.ok ?_
  refine Prod.ext ?_ ?_
  · funext x y
    simp only []
    by_cases hyj : y = j
    · rw [if_pos hyj, hyj]
      unfold canonQ gsq
      rw [if_pos (show ((j : Fin n) : ℕ) < (j : ℕ) + 1 by omega)]
    · rw [if_neg hyj]
      unfold canonQ
      have hyne : (y : ℕ) ≠ (j : ℕ) := fun hc => hyj (Fin.val_injective hc)
      by_cases hy : (y : ℕ) < (j : ℕ)
      · rw [if_pos hy, if_pos (show ((y : Fin n) : ℕ) < (j : ℕ) + 1 by omega)]
      · rw [if_neg hy, if_neg (show ¬ ((y : Fin n) : ℕ) < (j : ℕ) + 1 by omega)]
  · funext x y
    simp only []
    by_cases hyj : y = j
    · rw [if_pos hyj, hyj]
      unfold canonR
      rw [if_pos (show ((j : Fin n) : ℕ) < (j : ℕ) + 1 by omega)]
      by_cases hxj : x = j
      · rw [if_pos hxj, if_pos hxj]
      · rw [if_neg hxj, if_neg hxj]
        by_cases hx : (x : ℕ) < (j : ℕ)
        · rw [if_pos hx, if_pos hx]
          apply Finset.sum_congr rfl
          intro i2 _
          have hx2 : ((x : ℕ) < (j : ℕ)) = True := eq_true hx
          simp only [canonQ, hx2, if_true]
        · rw [if_neg hx, if_neg hx]
          rw [ite_self]
    · rw [if_neg hyj]
      unfold canonR
      have hyne : (y : ℕ) ≠ (j : ℕ) := fun hc => hyj (Fin.val_injective hc)
      by_cases hy : (y : ℕ) < (j : ℕ)
      · rw [if_pos hy, if_pos (show ((y : Fin n) : ℕ) < (j : ℕ) + 1 by omega)]
      · rw [if_neg hy, if_neg (show ¬ ((y : Fin n) : ℕ) < (j : ℕ) + 1 by omega)]

theorem qrStep_canon_err {n : ℕ} (A : Mat n ℝ) (j : Fin n)
    (h : vnorm (gsv A j) < qrEps) :
    qrStep A j (canonQ A (j : ℕ), canonR A (j : ℕ)) =
      .error "linearly dependent columns (zero norm)" := by
  unfold qrStep
  simp only []
  rw [qrV_canon, if_pos h]

theorem qrIter_ok {n : ℕ} (A : Mat n ℝ)
    (hgood : ∀ k : Fin n, ¬ vnorm (gsv A k) < qrEps) :
    ∀ fuel j, j ≤ n → n ≤ j + fuel →
      iterFrom n (fun j h st => qrStep A ⟨j, h⟩ st) fuel j
          (canonQ A j, canonR A j) =
        .ok (canonQ A n, canonR A n) := by
  intro fuel
  induction fuel with
  | zero =>
    intro j hj hnj
    have hjn : j = n := by omega
    rw [hjn, iterFrom]
  | succ d ih =>
    intro j hj hnj
    rw [iterFrom]
    by_cases hlt : j < n
    · rw [dif_pos hlt]
      have hstep : qrStep A ⟨j, hlt⟩ (canonQ A j, canonR A j) =
          .ok (canonQ A (j + 1), canonR A (j + 1)) :=
        qrStep_canon_ok A ⟨j, hlt⟩ (hgood ⟨j, hlt⟩)
      rw [hstep]
      exact ih (j + 1) (by omega) (by omega)
    · rw [dif_neg hlt]
      have hjn : j = n := by omega
      rw [hjn]

theorem qrIter_err {n : ℕ} (A : Mat n ℝ) (j0 : Fin n)
    (hbad : vnorm (gsv A j0) < qrEps)
    (hmin : ∀ k : Fin n, (k : ℕ) < (j0 : ℕ) → ¬ vnorm (gsv A k) < qrEps) :
    ∀ fuel j, j ≤ (j0 : ℕ) → (j0 : ℕ) < j + fuel →
      iterFrom n (fun j h st => qrStep A ⟨j, h⟩ st) fuel j
          (canonQ A j, canonR A j) =
        .error "linearly dependent columns (zero norm)" := by
  intro fuel
  induction fuel with
  | zero =>
    intro j hj hnj
    exact absurd hnj (by omega)
  | succ d ih =>
    intro j hj hnj
    have hj0n := j0.isLt
    rw [iterFrom]
    have hlt : j < n := by omega
    rw [dif_pos hlt]
    by_cases hjj : j = (j0 : ℕ)
    · subst hjj
      have hfin : (⟨(j0 : ℕ), hlt⟩ : Fin n) = j0 := Fin.ext rfl
      have hstep : qrStep A ⟨(j0 : ℕ), hlt⟩ (canonQ A (j0 : ℕ), canonR A (j0 : ℕ)) =
          .error "linearly dependent columns (zero norm)" := by
        rw [hfin]
        exact qrStep_canon_err A j0 hbad
      rw [hstep]
    · have hjlt : j < (j0 : ℕ) := by omega
      have hstep : qrStep A ⟨j, hlt⟩ (canonQ A j, canonR A j) =
          .ok (canonQ A (j + 1), canonR A (j + 1)) :=
        qrStep_canon_ok A ⟨j, hlt⟩ (hmin ⟨j, hlt⟩ hjlt)
      rw [hstep]
      exact ih (j + 1) (by omega) (by omega)

theorem qrLoop_ok {n : ℕ} (A : Mat n ℝ)
    (hgood : ∀ k : Fin n, ¬ vnorm (gsv A k) < qrEps) :
    qrLoop A = .ok (canonQ A n, canonR A n) := by
  have h := qrIter_ok A hgood n 0 (by omega) (by omega)
  rw [canonQ_zero, canonR_zero] at h
  unfold qrLoop
  exact h

theorem qrLoop_err {n : ℕ} (A : Mat n ℝ)
    (hbad : ∃ k : Fin n, vnorm (gsv A k) < qrEps) :
    qrLoop A = .error "linearly dependent columns (zero norm)" := by
  classical
  obtain ⟨k, hk⟩ := hbad
  obtain ⟨j0, hmem, hminimal⟩ :=
    Finset.exists_min_image
      (Finset.univ.filter fun l : Fin n => vnorm (gsv A l) < qrEps)
      (fun l => (l : ℕ))
      ⟨k, Finset.mem_filter.mpr ⟨Finset.mem_univ k, hk⟩⟩
  have hj0 : vnorm (gsv A j0) < qrEps := (Finset.mem_filter.mp hmem).2
  have hmin : ∀ l : Fin n, (l : ℕ) < (j0 : ℕ) → ¬ vnorm (gsv A l) < qrEps := by
    intro l hl hlbad
    have := hminimal l (Finset.mem_filter.mpr ⟨Finset.mem_univ l, hlbad⟩)
    omega
  have hj0n := j0.isLt
  have h := qrIter_err A j0 hj0 hmin n 0 (by omega) (by omega)
  rw [canonQ_zero, canonR_zero] at h
  unfold qrLoop
  exact h

theorem QRDecompose_run (m : RawMatrix ℝ) (hval : validate m = none)
    (hlen : ¬ m.length = 0) (hsq : ¬ isSquare m = false) :
    QRDecompose m = qrLoop (ofRaw m) := by
  unfold QRDecompose
  rw [hval, if_neg hlen, if_neg hsq]

/-- **C7.** `QRDecompose` returns an error (and hence no `Q`/`R` pair)
exactly when the input is invalid (ragged), empty, non-square, or some
column's Gram-Schmidt residual has norm below the `1e-10` threshold; and
whenever it succeeds, every diagonal entry `R[j][j]` is exactly the norm
of the `j`-th orthogonalised column. -/
theorem qr_characterisation (m : RawMatrix ℝ) :
    ((∃ e, QRDecompose m = .error e) ↔
      validate m ≠ none ∨ m.length = 0 ∨ isSquare m = false ∨
        ∃ j : Fin m.length, vnorm (gsv (ofRaw m) j) < qrEps) ∧
    ∀ Q R, QRDecompose m = .ok (Q, R) →
      ∀ j : Fin m.length, R j j = vnorm (gsv (ofRaw m) j) := by
  constructor
  · constructor
    · rintro ⟨e, he⟩
      by_contra hcon
      push_neg at hcon
      obtain ⟨hv, hne, hsq, hgood⟩ := hcon
      have hsq2 : ¬ isSquare m = false := by simp [hsq]
      rw [QRDecompose_run m hv hne hsq2] at he
      have hgood2 : ∀ k : Fin m.length, ¬ vnorm (gsv (ofRaw m) k) < qrEps :=
        fun k => not_lt.mpr (hgood k)
      rw [qrLoop_ok _ hgood2] at he
      exact Except.noConfusion he
    · intro hcond
      cases hval : validate m with
      | some e =>
        exact ⟨e, by unfold QRDecompose; rw [hval]⟩
      | none =>
        by_cases hlen : m.length = 0
        · exact ⟨"empty matrix", by unfold QRDecompose; rw [hval, if_pos hlen]⟩
        · by_cases hsq : isSquare m = false
          · exact ⟨"matrix must be square",
              by unfold QRDecompose; rw [hval, if_neg hlen, if_pos hsq]⟩
          · rcases hcond with hv | hl | hs | ⟨j, hj⟩
            · exact absurd hval hv
            · exact absurd hl hlen
            · exact absurd hs hsq
            · exact ⟨"linearly dependent columns (zero norm)",
                by rw [QRDecompose_run m hval hlen hsq];
                   exact qrLoop_err (ofRaw m) ⟨j, hj⟩⟩
  · intro Q R hok j
    cases hval : validate m with
    | some e =>
      rw [show QRDecompose m = .error e from by unfold QRDecompose; rw [hval]] at hok
      exact Except.noConfusion hok
    | none =>
      by_cases hlen : m.length = 0
      · rw [show QRDecompose m = .error "empty matrix" from
          by unfold QRDecompose; rw [hval, if_pos hlen]] at hok
        exact Except.noConfusion hok
      · by_cases hsq : isSquare m = false
        · rw [show QRDecompose m = .error "matrix must be square" from
            by unfold QRDecompose; rw [hval, if_neg hlen, if_pos hsq]] at hok
          exact Except.noConfusion hok
        · rw [QRDecompose_run m hval hlen hsq] at hok
          by_cases hgood : ∀ k : Fin m.length, ¬ vnorm (gsv (ofRaw m) k) < qrEps
          · rw [qrLoop_ok _ hgood] at hok
            injection hok with hpair
            injection hpair with hQ hR
            rw [← hR]
            simp [canonR, j.isLt]
          · push_neg at hgood
            rw [qrLoop_err _ hgood] at hok
            exact Except.noConfusion hok

set_option maxHeartbeats 1000000 in
/-- The claim `C7` instantiated on `[[2]]`: the decomposition succeeds and
the returned `R` has `R[0][0] = ‖v_0‖ = 2`. -/
theorem qr_characterisation_witness :
    ∃ Q R, QRDecompose ([[(2 : ℝ)]]) = .ok (Q, R) ∧
      ∀ j : Fin ([[(2 : ℝ)]] : RawMatrix ℝ).length, R j j = 2 := by
  have hval : validate ([[(2 : ℝ)]] : RawMatrix ℝ) = none := rfl
  have hlen : ¬ ([[(2 : ℝ)]] : RawMatrix ℝ).length = 0 := by norm_num
  have hsq : ¬ isSquare ([[(2 : ℝ)]] : RawMatrix ℝ) = false := by
    rw [show isSquare ([[(2 : ℝ)]] : RawMatrix ℝ) = true from rfl]
    exact fun hc => Bool.noConfusion hc
  have hIio :
      Finset.Iio (⟨0, Nat.one_pos⟩ : Fin ([[(2 : ℝ)]] : RawMatrix ℝ).length) = ∅ := by
    decide
  have hgsv : ∀ i, gsv (ofRaw ([[(2 : ℝ)]])) ⟨0, Nat.one_pos⟩ i = 2 := by
    intro i
    have hi : (i : ℕ) = 0 := Nat.lt_one_iff.mp i.isLt
    simp only [gsv_eq]
    rw [hIio, Finset.sum_empty, sub_zero]
    norm_num [ofRaw, hi]
  have hvn : vnorm (gsv (ofRaw ([[(2 : ℝ)]])) ⟨0, Nat.one_pos⟩) = 2 := by
    unfold vnorm
    have huniv :
        (Finset.univ : Finset (Fin ([[(2 : ℝ)]] : RawMatrix ℝ).length)) =
          {⟨0, Nat.one_pos⟩} := by
      decide
    rw [huniv, Finset.sum_singleton, hgsv]
    rw [show (2 : ℝ) * 2 = 2 ^ 2 by norm_num]
    exact Real.sqrt_sq (by norm_num)
  have hgood : ∀ k : Fin ([[(2 : ℝ)]] : RawMatrix ℝ).length,
      ¬ vnorm (gsv (ofRaw ([[(2 : ℝ)]])) k) < qrEps := by
    intro k
    have hk : k = ⟨0, Nat.one_pos⟩ := Fin.ext (Nat.lt_one_iff.mp k.isLt)
    rw [hk, hvn]
    norm_num [qrEps]
  have hok : QRDecompose ([[(2 : ℝ)]]) =
      .ok (canonQ (ofRaw ([[(2 : ℝ)]])) ([[(2 : ℝ)]] : RawMatrix ℝ).length,
        canonR (ofRaw ([[(2 : ℝ)]])) ([[(2 : ℝ)]] : RawMatrix ℝ).length) := by
    rw [QRDecompose_run _ hval hlen hsq]
    exact qrLoop_ok _ hgood
  refine ⟨_, _, hok, ?_⟩
  intro j
  have hj : j = ⟨0, Nat.one_pos⟩ := Fin.ext (Nat.lt_one_iff.mp j.isLt)
  have hdiag := (qr_characterisation ([[(2 : ℝ)]])).2 _ _ hok j
  rw [hdiag, hj, hvn]

theorem dotR_comm {n : ℕ} (u v : Fin n → ℝ) : dotR u v = dotR v u := by
  unfold dotR
  apply Finset.sum_congr rfl
  intro i _
  ring

theorem dotR_self_nonneg {n : ℕ} (v : Fin n → ℝ) : 0 ≤ dotR v v :=
  Finset.sum_nonneg fun i _ => mul_self_nonneg (v i)

theorem vnorm_sq {n : ℕ} (v : Fin n → ℝ) : vnorm v ^ 2 = dotR v v := by
  unfold vnorm dotR
  exact Real.sq_sqrt (Finset.sum_nonneg fun i _ => mul_self_nonneg (v i))

theorem vnorm_nonneg {n : ℕ} (v : Fin n → ℝ) : 0 ≤ vnorm v := Real.sqrt_nonneg _

theorem vnorm_eq_zero_iff {n : ℕ} (v : Fin n → ℝ) : vnorm v = 0 ↔ v = 0 := by
  unfold vnorm
  rw [show (Real.sqrt (∑ i, v i * v i) = 0) =
      (Real.sqrt (∑ i, v i * v i) = 0) from rfl]
  constructor
  · intro h
    have hnn : (0 : ℝ) ≤ ∑ i, v i * v i :=
      Finset.sum_nonneg fun i _ => mul_self_nonneg (v i)
    have hs : (∑ i, v i * v i) = 0 := by
      have := Real.sqrt_eq_zero hnn
      exact this.mp h
    funext i
    have hz := (Finset.sum_eq_zero_iff_of_nonneg
      (fun i _ => mul_self_nonneg (v i))).mp hs i (Finset.mem_univ i)
    simpa using mul_self_eq_zero.mp hz
  · intro h
    rw [h]
    simp

theorem vnorm_pos_of_ne {n : ℕ} (v : Fin n → ℝ) (h : v ≠ 0) : 0 < vnorm v :=
  lt_of_le_of_ne (vnorm_nonneg v)
    (fun hc => h ((vnorm_eq_zero_iff v).mp hc.symm))

theorem dotR_gsq {n : ℕ} (A : Mat n ℝ) (u : Fin n → ℝ) (k : Fin n) :
    dotR u (gsq A k) = dotR u (gsv A k) / vnorm (gsv A k) := by
  unfold dotR gsq
  rw [Finset.sum_div]
  apply Finset.sum_congr rfl
  intro i _
  ring

theorem dotR_gsv_expand {n : ℕ} (A : Mat n ℝ) (u : Fin n → ℝ) (j : Fin n) :
    dotR u (gsv A j) =
      dotR u (fun i => A i j) -
        ∑ k ∈ Finset.Iio j, (∑ i2, gsq A k i2 * A i2 j) * dotR u (gsq A k) := by
  unfold dotR
  simp only [gsv_eq]
  have h1 : ∀ i : Fin n,
      u i * (A i j - ∑ k ∈ Finset.Iio j, (∑ i2, gsq A k i2 * A i2 j) * gsq A k i) =
        u i * A i j -
          ∑ k ∈ Finset.Iio j, (∑ i2, gsq A k i2 * A i2 j) * (u i * gsq A k i) := by
    intro i
    rw [mul_sub, Finset.mul_sum]
    congr 1
    apply Finset.sum_congr rfl
    intro k _
    ring
  rw [Finset.sum_congr rfl (fun i _ => h1 i), Finset.sum_sub_distrib]
  congr 1
  rw [Finset.sum_comm]
  apply Finset.sum_congr rfl
  intro k _
  rw [Finset.mul_sum]

theorem dotR_col_expand {n : ℕ} (A : Mat n ℝ) (u : Fin n → ℝ) (j : Fin n) :
    dotR u (fun i => A i j) =
      dotR u (gsv A j) +
        ∑ k ∈ Finset.Iio j, (∑ i2, gsq A k i2 * A i2 j) * dotR u (gsq A k) := by
  rw [dotR_gsv_expand]
  ring

theorem gsv_orth_aux {n : ℕ} (A : Mat n ℝ) (hnz : ∀ l : Fin n, gsv A l ≠ 0) :
    ∀ N : ℕ, ∀ j k : Fin n, (j : ℕ) < N → k < j →
      dotR (gsv A k) (gsv A j) = 0 := by
  intro N
  induction N with
  | zero =>
    intro j k hj hk
    exact absurd hj (Nat.not_lt_zero _)
  | succ N ih =>
    intro j k hj hk
    by_cases hjN : (j : ℕ) < N
    · exact ih j k hjN hk
    · have hjval : (j : ℕ) = N := by omega
      have hkval : (k : ℕ) < N := by
        have := Fin.lt_def.mp hk
        omega
      rw [dotR_gsv_expand]
      have hksub : k ∈ Finset.Iio j := Finset.mem_Iio.mpr hk
      rw [← Finset.add_sum_erase _ _ hksub]
      have herase : (∑ l ∈ (Finset.Iio j).erase k,
          (∑ i2, gsq A l i2 * A i2 j) * dotR (gsv A k) (gsq A l)) = 0 := by
        apply Finset.sum_eq_zero
        intro l hl
        obtain ⟨hlk, hlj⟩ := Finset.mem_erase.mp hl
        have hlj2 : l < j := Finset.mem_Iio.mp hlj
        have hlval : (l : ℕ) < N := by
          have := Fin.lt_def.mp hlj2
          omega
        have hdot : dotR (gsv A k) (gsv A l) = 0 := by
          rcases lt_or_gt_of_ne hlk with h1 | h2
          · rw [dotR_comm]
            exact ih k l hkval h1
          · exact ih l k hlval h2
        rw [dotR_gsq, hdot, zero_div, mul_zero]
      rw [herase, add_zero]
      rw [dotR_gsq]
      have hvkpos : vnorm (gsv A k) ≠ 0 :=
        ne_of_gt (vnorm_pos_of_ne _ (hnz k))
      have hvk : dotR (gsv A k) (gsv A k) = vnorm (gsv A k) ^ 2 := (vnorm_sq _).symm
      have hck : (∑ i2, gsq A k i2 * A i2 j) =
          dotR (gsv A k) (fun i => A i j) / vnorm (gsv A k) := by
        have he : (∑ i2, gsq A k i2 * A i2 j) = dotR (gsq A k) (fun i => A i j) := rfl
        rw [he, dotR_comm, dotR_gsq, dotR_comm]
      rw [hck, hvk]
      field_simp
      ring

theorem col_orth {n : ℕ} (A : Mat n ℝ) (hnz : ∀ l : Fin n, gsv A l ≠ 0)
    (j j0 : Fin n) (hj : j < j0) :
    dotR (gsv A j0) (fun i => A i j) = 0 := by
  rw [dotR_col_expand]
  have h1 : dotR (gsv A j0) (gsv A j) = 0 := by
    rw [dotR_comm]
    exact gsv_orth_aux A hnz n j0 j j0.isLt hj
  rw [h1, zero_add]
  apply Finset.sum_eq_zero
  intro k hk
  have hkj : k < j := Finset.mem_Iio.mp hk
  have h2 : dotR (gsv A j0) (gsv A k) = 0 := by
    rw [dotR_comm]
    exact gsv_orth_aux A hnz n j0 k j0.isLt (lt_trans hkj hj)
  rw [dotR_gsq, h2, zero_div, mul_zero]

theorem gs_linearIndependent {n : ℕ} (A : Mat n ℝ)
    (hnz : ∀ l : Fin n, gsv A l ≠ 0) :
    LinearIndependent ℝ (fun j : Fin n => fun i => A i j) := by
  rw [Fintype.linearIndependent_iff]
  intro c hc
  by_contra hne
  push_neg at hne
  obtain ⟨j1, hj1⟩ := hne
  classical
  obtain ⟨j0, hmem, hmax⟩ :=
    Finset.exists_max_image (Finset.univ.filter fun j : Fin n => c j ≠ 0)
      (fun j => (j : ℕ))
      ⟨j1, Finset.mem_filter.mpr ⟨Finset.mem_univ _, hj1⟩⟩
  have hcj0 : c j0 ≠ 0 := (Finset.mem_filter.mp hmem).2
  have hzero : ∀ x, (∑ j, c j * A x j) = 0 := by
    intro x
    have hx := congrFun hc x
    simpa [Finset.sum_apply, smul_eq_mul] using hx
  have hdot : dotR (gsv A j0) (fun x => ∑ j, c j * A x j) =
      c j0 * vnorm (gsv A j0) ^ 2 := by
    unfold dotR
    have h1 : ∀ x : Fin n, gsv A j0 x * (∑ j, c j * A x j) =
        ∑ j, c j * (gsv A j0 x * A x j) := by
      intro x
      rw [Finset.mul_sum]
      apply Finset.sum_congr rfl
      intro j _
      ring
    rw [Finset.sum_congr rfl (fun x _ => h1 x), Finset.sum_comm]
    have h2 : ∀ j : Fin n, (∑ x, c j * (gsv A j0 x * A x j)) =
        c j * dotR (gsv A j0) (fun i => A i j) := by
      intro j
      unfold dotR
      rw [Finset.mul_sum]
    rw [Finset.sum_congr rfl (fun j _ => h2 j)]
    rw [Finset.sum_eq_single j0]
    · congr 1
      rw [dotR_col_expand]
      have hself : dotR (gsv A j0) (gsv A j0) = vnorm (gsv A j0) ^ 2 :=
        (vnorm_sq _).symm
      rw [hself]
      have hrest : (∑ k ∈ Finset.Iio j0,
          (∑ i2, gsq A k i2 * A i2 j0) * dotR (gsv A j0) (gsq A k)) = 0 := by
        apply Finset.sum_eq_zero
        intro k hk
        have hkj : k < j0 := Finset.mem_Iio.mp hk
        have h3 : dotR (gsv A j0) (gsv A k) = 0 := by
          rw [dotR_comm]
          exact gsv_orth_aux A hnz n j0 k j0.isLt hkj
        rw [dotR_gsq, h3, zero_div, mul_zero]
      rw [hrest, add_zero]
    · intro j _ hjne
      by_cases hlt : (j : ℕ) < (j0 : ℕ)
      · rw [col_orth A hnz j j0 (Fin.lt_def.mpr hlt), mul_zero]
      · have hcj : c j = 0 := by
          by_contra hc2
          have hle := hmax j (Finset.mem_filter.mpr ⟨Finset.mem_univ _, hc2⟩)
          exact hjne (Fin.ext (by omega))
        rw [hcj, zero_mul]
    · intro hnotmem
      exact absurd (Finset.mem_univ j0) hnotmem
  have hfun : (fun x => ∑ j, c j * A x j) = (fun _ : Fin n => (0 : ℝ)) :=
    funext hzero
  rw [hfun] at hdot
  have h0 : dotR (gsv A j0) (fun _ : Fin n => (0 : ℝ)) = 0 := by
    unfold dotR
    simp
  rw [h0] at hdot
  have hvpos : 0 < vnorm (gsv A j0) := vnorm_pos_of_ne _ (hnz j0)
  have hv2 : vnorm (gsv A j0) ^ 2 ≠ 0 := pow_ne_zero _ (ne_of_gt hvpos)
  exact (mul_ne_zero hcj0 hv2) hdot.symm

theorem dep_gives_bad {n : ℕ} (A : Mat n ℝ)
    (hdep : ¬ LinearIndependent ℝ (fun j : Fin n => fun i => A i j)) :
    ∃ k : Fin n, vnorm (gsv A k) < qrEps := by
  by_contra h
  push_neg at h
  apply hdep
  apply gs_linearIndependent
  intro l hl0
  have h2 := h l
  rw [hl0] at h2
  have hz : vnorm (0 : Fin n → ℝ) = 0 := by
    unfold vnorm
    simp
  rw [hz] at h2
  have := qrEps_pos
  linarith

/-- **C10.** On a valid, non-empty, square matrix with linearly dependent
columns and at least one requested iteration, `EigenvaluesQR` aborts with
the linearly-dependent-columns error of the very first QR factorisation
and produces no eigenvalues. -/
theorem eigen_dependent_columns (m : RawMatrix ℝ) (maxIter : ℤ) (tol : ℝ)
    (hval : validate m = none) (hlen : ¬ m.length = 0)
    (hsq : ¬ isSquare m = false) (hiter : 1 ≤ maxIter)
    (hdep : ¬ LinearIndependent ℝ (fun j : Fin m.length => fun i => ofRaw m i j)) :
    EigenvaluesQR m maxIter tol = .error "linearly dependent columns (zero norm)" := by
  have hbad := dep_gives_bad (ofRaw m) hdep
  have hq := qrLoop_err (ofRaw m) hbad
  unfold EigenvaluesQR
  rw [hval, if_neg hlen, if_neg hsq, if_neg (show ¬ maxIter ≤ 0 from by omega)]
  obtain ⟨r, hr⟩ : ∃ r, maxIter.toNat = r + 1 := ⟨maxIter.toNat - 1, by omega⟩
  rw [hr, eigenIter, hq]

/-- The claim `C10` instantiated on the all-zero `2×2` matrix with one
requested iteration. -/
theorem eigen_dependent_columns_witness :
    EigenvaluesQR ([[(0 : ℝ), 0], [0, 0]]) 1 0 =
      .error "linearly dependent columns (zero norm)" := by
  apply eigen_dependent_columns
  · rfl
  · norm_num
  · rw [show isSquare ([[(0 : ℝ), 0], [0, 0]] : RawMatrix ℝ) = true from rfl]
    exact fun hc => Bool.noConfusion hc
  · exact le_refl 1
  · intro hLI
    have hz := hLI.ne_zero (⟨0, by norm_num⟩ : Fin ([[(0 : ℝ), 0], [0, 0]] : RawMatrix ℝ).length)
    apply hz
    funext i
    have h2 : (i : ℕ) < 2 := i.isLt
    have hi : (i : ℕ) = 0 ∨ (i : ℕ) = 1 := by omega
    rcases hi with hi | hi <;> simp [ofRaw, hi]

end QRLemmas

end Linalg
